import Mathlib

/-!
# Stray output pool (package outputspool)

A shallow embedding of the record codec (strayinputs.go) and of the sweep
builder (script.go).  Byte strings are lists of naturals (each below 256 when
they come from Go byte slices); Go int64 values are integers with explicit
reduction modulo 2^64 wherever the Go arithmetic can wrap.
-/

namespace Outputspool

/-! ## Errors and machine integers -/

/-- Error values that flow through the code: io.EOF, io.ErrUnexpectedEOF, the
run-time panic of an out-of-range slice index, and any error produced by an
external collaborator (tagged by a number).  outOfFuel is not a Go error: it
marks a bounded loop of this embedding running out of fuel, which
decodeLoop_fuel shows never happens.  noStrayInputsCreated and
noPaymentsCreated are the package errors ErrNoStrayInputsCreated and
ErrNoPaymentsCreated. -/
inductive Err where
  | eof
  | unexpectedEOF
  | indexOutOfRange
  | outOfFuel
  | noStrayInputsCreated
  | noPaymentsCreated
  | other (code : Nat)
  deriving DecidableEq, Repr

/-- Conversion of an arbitrary integer to the int64 with the same 64-bit
pattern (Go conversion int64(x), and the result of wrapping arithmetic). -/
def wrap64 (x : Int) : Int := (x + 2 ^ 63) % 2 ^ 64 - 2 ^ 63

/-- Go conversion uint64(x) of an int64 x: the unsigned 64-bit pattern. -/
def toUint64 (x : Int) : Nat := (x % 2 ^ 64).toNat

/-- Go binary.BigEndian.PutUint64 into an 8-byte buffer. -/
def putUint64 (v : Nat) : List Nat :=
  [v / 2 ^ 56 % 256, v / 2 ^ 48 % 256, v / 2 ^ 40 % 256, v / 2 ^ 32 % 256,
   v / 2 ^ 24 % 256, v / 2 ^ 16 % 256, v / 2 ^ 8 % 256, v % 256]

/-- Go binary.BigEndian.PutUint32 into a 4-byte buffer (used by binary.Write
for a uint32). -/
def putUint32 (v : Nat) : List Nat :=
  [v / 2 ^ 24 % 256, v / 2 ^ 16 % 256, v / 2 ^ 8 % 256, v % 256]

/-- Go binary.BigEndian.PutUint16 into a 2-byte buffer. -/
def putUint16 (v : Nat) : List Nat :=
  [v / 2 ^ 8 % 256, v % 256]

/-- Go binary.BigEndian.Uint64 of the first 8 bytes of a buffer (bytes are
below 256, so the bitwise or of the shifted bytes is their sum). -/
def uint64 (b : List Nat) : Nat :=
  b.getD 7 0 + b.getD 6 0 * 2 ^ 8 + b.getD 5 0 * 2 ^ 16 + b.getD 4 0 * 2 ^ 24 +
  b.getD 3 0 * 2 ^ 32 + b.getD 2 0 * 2 ^ 40 + b.getD 1 0 * 2 ^ 48 + b.getD 0 0 * 2 ^ 56

/-- Go binary.BigEndian.Uint32 of the first 4 bytes of a buffer. -/
def uint32 (b : List Nat) : Nat :=
  b.getD 3 0 + b.getD 2 0 * 2 ^ 8 + b.getD 1 0 * 2 ^ 16 + b.getD 0 0 * 2 ^ 24

/-- Go binary.BigEndian.Uint16 of the first 2 bytes of a buffer. -/
def uint16 (b : List Nat) : Nat :=
  b.getD 1 0 + b.getD 0 0 * 2 ^ 8

/-! ## Data model (strayinputs.go) -/

/-- The wire.OutPoint of an input: a 32-byte transaction hash and a uint32
output index. -/
structure OutPoint where
  hash : List Nat
  index : Nat
  deriving DecidableEq, Repr

/-- The struct spendableOutput; the sign descriptor type belongs to the signer
and is a parameter. -/
structure SpendableOutput (SD : Type) where
  amt : Int
  outpoint : OutPoint
  witnessType : Nat
  signDesc : SD
  deriving DecidableEq, Repr

/-- The struct strayInput. -/
structure StrayInput (SD : Type) where
  txVSize : Int
  totalAmt : Int
  inputs : List (SpendableOutput SD)
  deriving DecidableEq, Repr

/-- The external sign descriptor codec (lnwallet.WriteSignDescriptor and
lnwallet.ReadSignDescriptor).  write gives the bytes appended to the writer;
read is given the bytes left in the reader and returns the descriptor with
the number of bytes it consumed. -/
structure SignDescCodec (SD : Type) where
  write : SD → Except Err (List Nat)
  read : List Nat → Except Err (SD × Nat)

/-! ## Encode -/

/-- The function writeOutpoint on a bytes.Buffer (whose Write never fails):
the 32 hash bytes, then binary.Write of the uint32 index. -/
def writeOutpoint (w : List Nat) (o : OutPoint) : List Nat :=
  (w ++ o.hash) ++ putUint32 o.index

/-- The loop body of strayInput.Encode for one input, on the buffer w. -/
def encodeInput {SD : Type} (codec : SignDescCodec SD) (w : List Nat)
    (input : SpendableOutput SD) : Except Err (List Nat) :=
  let w1 := w ++ putUint64 (toUint64 input.amt)
  let w2 := writeOutpoint w1 input.outpoint
  let w3 := w2 ++ putUint16 (input.witnessType % 2 ^ 16)
  match codec.write input.signDesc with
  | .error e => .error e
  | .ok d => .ok (w3 ++ d)

/-- The range loop of strayInput.Encode. -/
def encodeInputs {SD : Type} (codec : SignDescCodec SD) :
    List Nat → List (SpendableOutput SD) → Except Err (List Nat)
  | w, [] => .ok w
  | w, input :: rest =>
    match encodeInput codec w input with
    | .error e => .error e
    | .ok w1 => encodeInputs codec w1 rest

/-- The method strayInput.Encode writing to a bytes.Buffer holding w; the
result is the buffer afterwards.  (On an error the caller drops the buffer.) -/
def Encode {SD : Type} (codec : SignDescCodec SD) (s : StrayInput SD)
    (w : List Nat) : Except Err (List Nat) :=
  let w1 := w ++ putUint64 (toUint64 s.txVSize)
  let w2 := w1 ++ putUint64 (toUint64 s.totalAmt)
  encodeInputs codec w2 s.inputs

/-! ## Readers -/

/-- The method Read of bytes.Reader and bytes.Buffer for a non-empty
destination p, on a reader with r left: with nothing left it returns
(0, io.EOF); otherwise it copies min(len p, len r) bytes to the front of p and
returns a nil error.  The result is the buffer p afterwards and the bytes left. -/
def read (r : List Nat) (p : List Nat) : Except Err (List Nat × List Nat) :=
  if r.length = 0 then .error .eof
  else
    let n := min p.length r.length
    .ok (r.take n ++ p.drop n, r.drop n)

/-- Go io.ReadFull of n bytes on io.LimitReader over a reader with r left and
limit lim: the bytes available are the first lim of r; with at least n of them
the read succeeds, with none the error is io.EOF, with some but too few it is
io.ErrUnexpectedEOF.  The result is the bytes read, the bytes left in the
underlying reader and the limit left. -/
def readFullLimited (r : List Nat) (lim : Nat) (n : Nat) :
    Except Err (List Nat × List Nat × Nat) :=
  if n ≤ (r.take lim).length then .ok ((r.take lim).take n, r.drop n, lim - n)
  else if (r.take lim).length = 0 then .error .eof
  else .error .unexpectedEOF

/-- The function readOutpoint on io.LimitReader(r, lim): io.ReadFull of the
32 hash bytes, then binary.Read of the uint32 index. -/
def readOutpoint (r : List Nat) (lim : Nat) : Except Err (OutPoint × List Nat) :=
  match readFullLimited r lim 32 with
  | .error e => .error e
  | .ok (h, r1, lim1) =>
    match readFullLimited r1 lim1 4 with
    | .error e => .error e
    | .ok (ib, r2, _) => .ok (⟨h, uint32 ib⟩, r2)

/-! ## Decode -/

/-- The for loop of strayInput.Decode.  The state is the scratch buffer, the
inputs appended so far and the bytes left in the reader; the result is the
value of err at the break together with the inputs.  Every iteration that
does not break consumes at least one byte, so the loop is run with one unit
of fuel per byte left plus one; none stands for fuel exhausted. -/
def decodeLoop {SD : Type} (codec : SignDescCodec SD) :
    Nat → List Nat → List (SpendableOutput SD) → List Nat →
    Option (Err × List (SpendableOutput SD))
  | 0, _, _, _ => none
  | fuel + 1, scratch, inputs, r =>
    match read r scratch with
    | .error e => some (e, inputs)
    | .ok (scratch1, r1) =>
      let amt := wrap64 (uint64 scratch1)
      match readOutpoint r1 40 with
      | .error e => some (e, inputs)
      | .ok (outpoint, r2) =>
        match read r2 (scratch1.take 2) with
        | .error e => some (e, inputs)
        | .ok (tag, r3) =>
          let scratch2 := tag ++ scratch1.drop 2
          let witnessType := uint16 (scratch2.take 2)
          match codec.read r3 with
          | .error e => some (e, inputs)
          | .ok (signDesc, n) =>
            decodeLoop codec fuel scratch2
              (inputs ++ [⟨amt, outpoint, witnessType, signDesc⟩]) (r3.drop n)

/-- The method strayInput.Decode on the receiver s and a reader with r left.
The result is the receiver after a nil return, or the returned error (the
callers drop the receiver on an error). -/
def Decode {SD : Type} (codec : SignDescCodec SD) (s : StrayInput SD)
    (r : List Nat) : Except Err (StrayInput SD) :=
  let scratch0 : List Nat := [0, 0, 0, 0, 0, 0, 0, 0]
  match read r scratch0 with
  | .error e => .error e
  | .ok (scratch1, r1) =>
    let txVSize := wrap64 (uint64 scratch1)
    match read r1 scratch1 with
    | .error e => .error e
    | .ok (scratch2, r2) =>
      let totalAmt := wrap64 (uint64 scratch2)
      match decodeLoop codec (r2.length + 1) scratch2 s.inputs r2 with
      | none => .error .outOfFuel
      | some (e, inputs) =>
        if e ≠ Err.eof then .error e
        else .ok ⟨txVSize, totalAmt, inputs⟩

/-- A record as Go can hold it: int64 sizes and amounts, a 32-byte hash, a
uint32 index and a uint16 witness type. -/
def WellFormedOutput {SD : Type} (i : SpendableOutput SD) : Prop :=
  (-(2 : Int) ^ 63 ≤ i.amt ∧ i.amt < 2 ^ 63) ∧
  (i.outpoint.hash.length = 32 ∧ ∀ b ∈ i.outpoint.hash, b < 256) ∧
  i.outpoint.index < 2 ^ 32 ∧ i.witnessType < 2 ^ 16

/-- A well-formed record: int64 header fields and well-formed inputs. -/
def WellFormed {SD : Type} (s : StrayInput SD) : Prop :=
  (-(2 : Int) ^ 63 ≤ s.txVSize ∧ s.txVSize < 2 ^ 63) ∧
  (-(2 : Int) ^ 63 ≤ s.totalAmt ∧ s.totalAmt < 2 ^ 63) ∧
  ∀ i ∈ s.inputs, WellFormedOutput i

/-- A length-prefixed byte string codec standing in for the external sign
descriptor codec in concrete evaluations: one length byte, then the bytes.
Like the real reader it reports io.EOF on an exhausted stream. -/
def varBytesCodec : SignDescCodec (List Nat) where
  write := fun sd => .ok (sd.length :: sd)
  read := fun r =>
    match r with
    | [] => .error .eof
    | n :: rest =>
      if n ≤ rest.length then .ok (rest.take n, n + 1) else .error .unexpectedEOF

/-! ## The byte layout in the words of the specification -/

/-- The w-byte big-endian representation of v (its low w bytes, most
significant first). -/
def bigEndian : Nat → Nat → List Nat
  | 0, _ => []
  | w + 1, v => bigEndian w (v / 256) ++ [v % 256]

/-- The bytes the external descriptor codec writes for a descriptor (none when
the codec reports an error). -/
def descBytes {SD : Type} (codec : SignDescCodec SD) (sd : SD) : List Nat :=
  match codec.write sd with
  | .ok d => d
  | .error _ => []

/-- One entry of the layout: amount, outpoint hash, outpoint index, witness
type tag, sign descriptor. -/
def entryLayout {SD : Type} (codec : SignDescCodec SD) (i : SpendableOutput SD) : List Nat :=
  bigEndian 8 (toUint64 i.amt) ++ (i.outpoint.hash ++ (bigEndian 4 i.outpoint.index ++
    (bigEndian 2 (i.witnessType % 2 ^ 16) ++ descBytes codec i.signDesc)))

/-- The entries of the inputs, in order. -/
def inputsLayout {SD : Type} (codec : SignDescCodec SD) :
    List (SpendableOutput SD) → List Nat
  | [] => []
  | i :: rest => entryLayout codec i ++ inputsLayout codec rest

/-- The layout of a record: the 16-byte header, then the entries. -/
def recordLayout {SD : Type} (codec : SignDescCodec SD) (s : StrayInput SD) : List Nat :=
  bigEndian 8 (toUint64 s.txVSize) ++ (bigEndian 8 (toUint64 s.totalAmt) ++
    inputsLayout codec s.inputs)

/-- The descriptor codec round-trips the descriptor of i and consumes exactly
the bytes it wrote, whatever follows them. -/
def CodecRoundTrips {SD : Type} (codec : SignDescCodec SD) (i : SpendableOutput SD) : Prop :=
  ∃ d, codec.write i.signDesc = .ok d ∧
    ∀ rest, codec.read (d ++ rest) = .ok (i.signDesc, d.length)

/-- The fresh record of the Go expression that allocates an empty strayInput. -/
def emptyStrayInput {SD : Type} : StrayInput SD := ⟨0, 0, []⟩

/-- The hash used by the serialization test. -/
def testHash : List Nat :=
  [0xb7, 0x94, 0x38, 0x5f, 0x2d, 0x1e, 0xf7, 0xab,
   0x4d, 0x92, 0x73, 0xd1, 0x90, 0x63, 0x81, 0xb4,
   0x4f, 0x2f, 0x6f, 0x25, 0x88, 0xa3, 0xef, 0xb9,
   0x6a, 0x49, 0x18, 0x83, 0x31, 0x98, 0x47, 0x53]

/-- The record of the serialization test (with a short descriptor): virtual
size 10, total 201, two inputs of 100 and 101 on outputs 0 and 1 of testHash. -/
def encodeSample : StrayInput (List Nat) :=
  ⟨10, 201, [⟨100, ⟨testHash, 0⟩, 0, [2, 2, 2]⟩, ⟨101, ⟨testHash, 1⟩, 0, [2, 2, 2]⟩]⟩

/-! ## The sweep builder (script.go) -/

/-- The wire.TxIn fields the builder touches: the previous outpoint and the
witness (the empty list stands for nil). -/
structure TxIn where
  previousOutPoint : OutPoint
  witness : List (List Nat)
  deriving DecidableEq, Repr

/-- The wire.TxOut: value and script. -/
structure TxOut where
  value : Int
  pkScript : List Nat
  deriving DecidableEq, Repr

/-- The wire.MsgTx: version, inputs and outputs. -/
structure MsgTx where
  version : Int
  txIn : List TxIn
  txOut : List TxOut
  deriving DecidableEq, Repr

/-- The wire.NewMsgTx constructor: a transaction without inputs and outputs. -/
def NewMsgTx (version : Int) : MsgTx := ⟨version, [], []⟩

/-- The method MsgTx.AddTxIn. -/
def AddTxIn (txn : MsgTx) (ti : TxIn) : MsgTx :=
  ⟨txn.version, txn.txIn ++ [ti], txn.txOut⟩

/-- The method MsgTx.AddTxOut. -/
def AddTxOut (txn : MsgTx) (txOut : TxOut) : MsgTx :=
  ⟨txn.version, txn.txIn, txn.txOut ++ [txOut]⟩

/-- The cache txscript.TxSigHashes.  Its digests are external; each is kept
as the data it commits to at the time the cache is built: the previous
outpoints of all inputs and the outputs of the transaction. -/
structure TxSigHashes where
  prevOuts : List OutPoint
  outputs : List TxOut
  deriving DecidableEq, Repr

/-- The constructor txscript.NewTxSigHashes, over the transaction as it is when
called. -/
def NewTxSigHashes (txn : MsgTx) : TxSigHashes :=
  ⟨txn.txIn.map (fun ti => ti.previousOutPoint), txn.txOut⟩

/-- The collaborators of PoolConfig used by the sweep builder: the fee
estimator, and the witness builder (the BuildWitness method of the outputs
together with the configured signer), which sees the output, the transaction
as it is at the call, the cache and the input position; the generator of the
destination script and the broadcaster. -/
structure PoolConfig (SD : Type) where
  estimateFeePerVSize : Nat → Except Err Int
  buildWitness : SpendableOutput SD → MsgTx → TxSigHashes → Nat → Except Err (List (List Nat))
  genSweepScript : Except Err (List Nat)
  publishTransaction : MsgTx → Except Err Unit

/-- One call of BuildWitness as the builder makes it. -/
structure WitnessCall (SD : Type) where
  so : SpendableOutput SD
  txn : MsgTx
  hashCache : TxSigHashes
  idx : Nat
  deriving DecidableEq, Repr

/-- Modelled from the spec: the method FeeForVSize of the fee rate is not among
the sources; the spec gives the fee of a record as fee_rate times
tx_virtual_size, here as an int64 product. -/
def FeeForVSize (feePerVSize : Int) (vbytes : Int) : Int :=
  wrap64 (feePerVSize * vbytes)

/-- Modelled from the spec: the upper end of the allowed money range, the
constant btcutil.MaxSatoshi (21 million coins of 10^8 units). -/
def MaxSatoshi : Int := 2100000000000000

/-- Modelled from the spec: lnwallet.CheckTransactionSanity is not among the
sources; the spec describes a structural sanity check: non-empty inputs, a
non-negative and non-overflowing output value, no duplicate outpoints. -/
def CheckTransactionSanity (tx : MsgTx) : Except Err Unit :=
  if tx.txIn.length = 0 then .error (.other 1)
  else if tx.txOut.any (fun o => decide (o.value < 0 ∨ MaxSatoshi < o.value)) then
    .error (.other 2)
  else if ¬ (tx.txIn.map (fun ti => ti.previousOutPoint)).Nodup then .error (.other 3)
  else .ok ()

/-- The inner loop of genSweepTx that appends the inputs of one record. -/
def addTxIns {SD : Type} (txn : MsgTx) : List (SpendableOutput SD) → MsgTx
  | [] => txn
  | input :: rest => addTxIns (AddTxIn txn ⟨input.outpoint, []⟩) rest

/-- The closure addWitness of genSweepTx: build the witness of so for
position idx and store it in txn.TxIn[idx] (an index past the inputs is the
Go run-time panic). -/
def addWitness {SD : Type} (cfg : PoolConfig SD) (txn : MsgTx) (hashCache : TxSigHashes)
    (idx : Nat) (so : SpendableOutput SD) : Except Err MsgTx :=
  match cfg.buildWitness so txn hashCache idx with
  | .error e => .error e
  | .ok witness =>
    match txn.txIn.get? idx with
    | none => .error .indexOutOfRange
    | some ti => .ok ⟨txn.version, txn.txIn.set idx ⟨ti.previousOutPoint, witness⟩, txn.txOut⟩

/-- The loop of genSweepTx over the inputs of one record that calls
addWitness(i, input), i counting from the start of that record.  The second
component records the BuildWitness calls made. -/
def witnessLoop {SD : Type} (cfg : PoolConfig SD) (hashCache : TxSigHashes) :
    Nat → List (SpendableOutput SD) → MsgTx → List (WitnessCall SD) →
    Except Err MsgTx × List (WitnessCall SD)
  | _, [], txn, calls => (.ok txn, calls)
  | i, input :: rest, txn, calls =>
    match addWitness cfg txn hashCache i input with
    | .error e => (.error e, calls ++ [⟨input, txn, hashCache, i⟩])
    | .ok txn1 => witnessLoop cfg hashCache (i + 1) rest txn1 (calls ++ [⟨input, txn, hashCache, i⟩])

/-- The loop of genSweepTx over the records: the fee and the running total,
the inputs of the record, a cache over the transaction so far, and the
witnesses of the inputs of the record. -/
def recordsLoop {SD : Type} (cfg : PoolConfig SD) (feePerVSize : Int) :
    List (StrayInput SD) → MsgTx → Int → List (WitnessCall SD) →
    Except Err (MsgTx × Int) × List (WitnessCall SD)
  | [], txn, totalAmt, calls => (.ok (txn, totalAmt), calls)
  | sInput :: rest, txn, totalAmt, calls =>
    let txFee := FeeForVSize feePerVSize sInput.txVSize
    let totalAmt1 := wrap64 (totalAmt + wrap64 (sInput.totalAmt - txFee))
    let txn1 := addTxIns txn sInput.inputs
    let hashCache := NewTxSigHashes txn1
    match witnessLoop cfg hashCache 0 sInput.inputs txn1 calls with
    | (.error e, calls1) => (.error e, calls1)
    | (.ok txn2, calls1) => recordsLoop cfg feePerVSize rest txn2 totalAmt1 calls1

/-- The transaction genSweepTx has assembled when it reaches the sanity check,
with the BuildWitness calls made; an error of the estimator or of a witness
build ends it before. -/
def assembleSweepTx {SD : Type} (cfg : PoolConfig SD) (pkScript : List Nat)
    (strayInputs : List (StrayInput SD)) : Except Err MsgTx × List (WitnessCall SD) :=
  match cfg.estimateFeePerVSize 2 with
  | .error e => (.error e, [])
  | .ok feePerVSize =>
    match recordsLoop cfg feePerVSize strayInputs (NewMsgTx 2) 0 [] with
    | (.error e, calls) => (.error e, calls)
    | (.ok (txn, totalAmt), calls) => (.ok (AddTxOut txn ⟨totalAmt, pkScript⟩), calls)

/-- The method genSweepTx: the returned transaction or error, and the
BuildWitness calls made on the way. -/
def genSweepTx {SD : Type} (cfg : PoolConfig SD) (pkScript : List Nat)
    (strayInputs : List (StrayInput SD)) : Except Err MsgTx × List (WitnessCall SD) :=
  match assembleSweepTx cfg pkScript strayInputs with
  | (.error e, calls) => (.error e, calls)
  | (.ok txn, calls) =>
    match CheckTransactionSanity txn with
    | .error e => (.error e, calls)
    | .ok _ => (.ok txn, calls)

/-- The previous outpoints of all inputs of all records, in record order and
then input order. -/
def allOutpoints {SD : Type} : List (StrayInput SD) → List OutPoint
  | [] => []
  | s :: rest => s.inputs.map (fun i => i.outpoint) ++ allOutpoints rest

/-- The sum of the total amounts of the records, as an integer. -/
def sumTotalAmt {SD : Type} : List (StrayInput SD) → Int
  | [] => 0
  | s :: rest => s.totalAmt + sumTotalAmt rest

/-- The sum over the records of fee rate times virtual size, as an integer. -/
def sumFees {SD : Type} (feePerVSize : Int) : List (StrayInput SD) → Int
  | [] => 0
  | s :: rest => feePerVSize * s.txVSize + sumFees feePerVSize rest

/-- A configuration with a static fee rate whose witness builder answers with
one stack item holding the amount of the output and the position it was asked
for. -/
def staticConfig (feeRate : Int) : PoolConfig (List Nat) where
  estimateFeePerVSize := fun _ => .ok feeRate
  buildWitness := fun so _ _ idx => .ok [[so.amt.toNat, idx]]
  genSweepScript := .ok [1, 2, 3]
  publishTransaction := fun _ => .ok ()

/-- The two records of the scenario of the specification. -/
def scenarioRecords : List (StrayInput (List Nat)) :=
  [⟨10, 201, [⟨100, ⟨testHash, 0⟩, 0, []⟩, ⟨101, ⟨testHash, 1⟩, 0, []⟩]⟩,
   ⟨5, 50, [⟨50, ⟨testHash, 2⟩, 0, []⟩]⟩]

/-- A record whose int64 fee product wraps around at the fee rate 2^32. -/
def overflowRecords (totalAmt : Int) : List (StrayInput (List Nat)) :=
  [⟨2 ^ 32, totalAmt, [⟨totalAmt, ⟨testHash, 0⟩, 0, []⟩]⟩]

/-- The transaction genSweepTx returns for the scenario at the fee rate 2 and
the destination script 1, 2, 3. -/
def scenarioTx : MsgTx :=
  ⟨2, [⟨⟨testHash, 0⟩, [[50, 0]]⟩, ⟨⟨testHash, 1⟩, [[101, 1]]⟩, ⟨⟨testHash, 2⟩, []⟩],
   [⟨221, [1, 2, 3]⟩]⟩

/-- A record whose fee at the fee rate 2 (20) exceeds its total amount (5). -/
def dustRecords : List (StrayInput (List Nat)) :=
  [⟨10, 5, [⟨5, ⟨testHash, 0⟩, 0, []⟩]⟩]

/-- The witness build of a call succeeds. -/
def CallOk {SD : Type} (cfg : PoolConfig SD) (c : WitnessCall SD) : Prop :=
  ∃ w, cfg.buildWitness c.so c.txn c.hashCache c.idx = .ok w

/-- The shape of a log of BuildWitness calls next to a result: every call
before the last succeeded, and a last call that failed gave the result. -/
def LogShape {SD : Type} {α : Type} (cfg : PoolConfig SD) (res : Except Err α)
    (calls : List (WitnessCall SD)) : Prop :=
  (∀ c ∈ calls.dropLast, CallOk cfg c) ∧
  (∀ c e, calls.getLast? = some c →
    cfg.buildWitness c.so c.txn c.hashCache c.idx = .error e → res = .error e) ∧
  ((∃ a, res = .ok a) → ∀ c ∈ calls, CallOk cfg c)

/-- A configuration like staticConfig whose witness builder fails, with the
error 9, on outputs of amount 101. -/
def failingConfig (feeRate : Int) : PoolConfig (List Nat) where
  estimateFeePerVSize := fun _ => .ok feeRate
  buildWitness := fun so _ _ idx =>
    if so.amt = 101 then .error (.other 9) else .ok [[so.amt.toNat, idx]]
  genSweepScript := .ok [1, 2, 3]
  publishTransaction := fun _ => .ok ()

/-- The failing BuildWitness call of failingConfig on the scenario. -/
def failingCall : WitnessCall (List Nat) :=
  ⟨⟨101, ⟨testHash, 1⟩, 0, []⟩,
   ⟨2, [⟨⟨testHash, 0⟩, [[100, 0]]⟩, ⟨⟨testHash, 1⟩, []⟩], []⟩,
   ⟨[⟨testHash, 0⟩, ⟨testHash, 1⟩], []⟩, 1⟩

/-! ## The store (bolt) and the persistence adapter (strayinputs.go) -/

/-- A bolt bucket: its sequence counter (a uint64) and its entries in
byte-wise key order.  An entry without a value is a nested bucket, which
ForEach hands over with a nil value. -/
structure Bucket where
  sequence : Nat
  entries : List (List Nat × Option (List Nat))
  deriving DecidableEq, Repr

/-- The buckets of the database that the code names: strayInputBucket,
paymentBucket and paymentStatusBucket; none stands for a bucket that has not
been created.  The storage engine is an external collaborator: its operations
are modelled on this in-memory store, where they do not fail. -/
structure Store where
  strayInputs : Option Bucket
  payments : Option Bucket
  paymentStatuses : Option Bucket
  deriving DecidableEq, Repr

/-- A store without any bucket. -/
def emptyStore : Store := ⟨none, none, none⟩

/-- The byte-wise order of keys (Go bytes.Compare below zero). -/
def bytesLt : List Nat → List Nat → Bool
  | [], [] => false
  | [], _ :: _ => true
  | _ :: _, [] => false
  | a :: as, b :: bs => decide (a < b) || (decide (a = b) && bytesLt as bs)

/-- The bucket method Put on the sorted entries: replace the value of an
existing key, or insert the pair at its place in key order. -/
def putEntry (k v : List Nat) :
    List (List Nat × Option (List Nat)) → List (List Nat × Option (List Nat))
  | [] => [(k, some v)]
  | (k1, v1) :: rest =>
    if k = k1 then (k, some v) :: rest
    else if bytesLt k k1 then (k, some v) :: (k1, v1) :: rest
    else (k1, v1) :: putEntry k v rest

/-- The bucket method Put. -/
def Bucket.Put (b : Bucket) (k v : List Nat) : Bucket :=
  ⟨b.sequence, putEntry k v b.entries⟩

/-- The bucket method NextSequence: increment the uint64 counter and return it. -/
def Bucket.NextSequence (b : Bucket) : Nat × Bucket :=
  ((b.sequence + 1) % 2 ^ 64, ⟨(b.sequence + 1) % 2 ^ 64, b.entries⟩)

/-- The transaction method CreateBucketIfNotExists, for a bucket slot. -/
def createBucketIfNotExists (slot : Option Bucket) : Bucket :=
  match slot with
  | some b => b
  | none => ⟨0, []⟩

/-- The method AddStrayInput: encode into a fresh buffer, then in one batch
create the bucket if needed, take the next sequence number and put the bytes
under its 8-byte big-endian key.  The result is the returned error, if any,
and the store afterwards. -/
def AddStrayInput {SD : Type} (codec : SignDescCodec SD) (db : Store)
    (strayInput : StrayInput SD) : Except Err Unit × Store :=
  match Encode codec strayInput [] with
  | .error e => (.error e, db)
  | .ok b =>
    let inputs := createBucketIfNotExists db.strayInputs
    let (inputID, inputs1) := inputs.NextSequence
    let paymentIDBytes := putUint64 inputID
    (.ok (), ⟨some (inputs1.Put paymentIDBytes b), db.payments, db.paymentStatuses⟩)

/-- The callback of ForEach in FetchAllStrayInputs, over the entries in key
order: decode each value into a fresh record and append it; the first error
ends the iteration. -/
def fetchLoop {SD : Type} (codec : SignDescCodec SD) :
    List (List Nat × Option (List Nat)) → List (StrayInput SD) →
    Except Err (List (StrayInput SD))
  | [], inputs => .ok inputs
  | (_, v) :: rest, inputs =>
    match Decode codec emptyStrayInput (v.getD []) with
    | .error e => .error e
    | .ok input => fetchLoop codec rest (inputs ++ [input])

/-- The method FetchAllStrayInputs, in a read-only transaction: the records,
or nil records and the error. -/
def FetchAllStrayInputs {SD : Type} (codec : SignDescCodec SD) (db : Store) :
    Except Err (List (StrayInput SD)) :=
  match db.strayInputs with
  | none => .error .noStrayInputsCreated
  | some bucket => fetchLoop codec bucket.entries []

/-- The calls AddStrayInput(r_1), ..., AddStrayInput(r_k) in turn, as long as
each returns without error. -/
def addStrayInputs {SD : Type} (codec : SignDescCodec SD) :
    Store → List (StrayInput SD) → Except Err Store
  | db, [] => .ok db
  | db, r :: rest =>
    match AddStrayInput codec db r with
    | (.error e, _) => .error e
    | (.ok _, db1) => addStrayInputs codec db1 rest

/-- The entries of a bucket that holds the values vals under the keys of the
sequence numbers n + 1, n + 2, ... -/
def seqEntries : Nat → List (List Nat) → List (List Nat × Option (List Nat))
  | _, [] => []
  | n, v :: rest => (putUint64 (n + 1), some v) :: seqEntries (n + 1) rest

/-- A second record for the store examples. -/
def sampleTwo : StrayInput (List Nat) := ⟨5, 50, [⟨50, ⟨testHash, 2⟩, 0, [7]⟩]⟩

/-! ## The pool facade (script.go) -/

/-- The loop of AddInputs that sums the amounts of the inputs (int64). -/
def sumAmounts {SD : Type} : Int → List (SpendableOutput SD) → Int
  | totalAmt, [] => totalAmt
  | totalAmt, input :: rest => sumAmounts (wrap64 (totalAmt + input.amt)) rest

/-- The method AddInputs as it is in script.go: it sums the amounts and
returns nil.  The result is the returned error, if any, and the store
afterwards. -/
def AddInputs {SD : Type} (db : Store) (_txVSize : Int)
    (inputs : List (SpendableOutput SD)) : Except Err Unit × Store :=
  let _totalAmt := sumAmounts 0 inputs
  (.ok (), db)

/-- A call to a collaborator, as seen from outside the pool. -/
inductive Event (SD : Type) where
  | genSweepScript
  | estimateFeePerVSize (numBlocks : Nat)
  | buildWitness (call : WitnessCall SD)
  | publishTransaction (tx : MsgTx)
  deriving DecidableEq, Repr

/-- What a facade method leaves behind: its result, the store afterwards and
the calls to collaborators it made, in order. -/
structure Outcome (SD : Type) (α : Type) where
  result : Except Err α
  store : Store
  events : List (Event SD)

/-- The method GenSweepTx: the destination script first, then the records of
the store (read only), then genSweepTx, which asks the estimator once before
anything else. -/
def GenSweepTx {SD : Type} (cfg : PoolConfig SD) (codec : SignDescCodec SD) (db : Store) :
    Outcome SD MsgTx :=
  match cfg.genSweepScript with
  | .error e => ⟨.error e, db, [.genSweepScript]⟩
  | .ok pkScript =>
    match FetchAllStrayInputs codec db with
    | .error e => ⟨.error e, db, [.genSweepScript]⟩
    | .ok strayInputs =>
      ⟨(genSweepTx cfg pkScript strayInputs).1, db,
        [.genSweepScript, .estimateFeePerVSize 2] ++
          (genSweepTx cfg pkScript strayInputs).2.map .buildWitness⟩

/-- The method Sweep: GenSweepTx, then the broadcaster on its transaction. -/
def Sweep {SD : Type} (cfg : PoolConfig SD) (codec : SignDescCodec SD) (db : Store) :
    Outcome SD Unit :=
  match (GenSweepTx cfg codec db).result with
  | .error e => ⟨.error e, (GenSweepTx cfg codec db).store, (GenSweepTx cfg codec db).events⟩
  | .ok btx =>
    ⟨cfg.publishTransaction btx, (GenSweepTx cfg codec db).store,
      (GenSweepTx cfg codec db).events ++ [.publishTransaction btx]⟩

/-- The number of broadcasts among the events. -/
def publishCount {SD : Type} : List (Event SD) → Nat
  | [] => 0
  | .publishTransaction _ :: rest => publishCount rest + 1
  | _ :: rest => publishCount rest

/-! ## The economic gate (package strayoutputpool) -/

/-- Modelled from the spec: the function CutStrayInput is not among the
sources (only its test is).  The spec: compute the cost to spend the output
standalone as fee_rate * standalone_virtual_size(output); if output.amount <=
cost the output is redirected into the pool through AddSpendableOutput,
otherwise no pool mutation occurs.  The pool is the list of the outputs
AddSpendableOutput was called with. -/
def CutStrayInput {SD : Type} (standaloneVSize : SpendableOutput SD → Int)
    (pool : List (SpendableOutput SD)) (feeRate : Int) (output : SpendableOutput SD) :
    List (SpendableOutput SD) :=
  if output.amt ≤ feeRate * standaloneVSize output then pool ++ [output] else pool

/-! ## The payment status migration (channeldb/migrations.go) -/

/-- The part of an outgoing payment the migration reads: the preimage. -/
structure OutgoingPayment where
  paymentPreimage : List Nat
  deriving DecidableEq, Repr

/-- The functions and constants of channeldb and crypto/sha256 the migration
calls, which are not among the sources: the payment deserializer, the hash and
the bytes of StatusCompleted. -/
structure MigrationEnv where
  deserializeOutgoingPayment : List Nat → Except Err OutgoingPayment
  sha256 : List Nat → List Nat
  statusCompleted : List Nat

/-- The callback of ForEach in paymentStatusesMigration, over the entries of
the payments bucket in key order, on the status bucket: skip nested buckets,
deserialize, hash the preimage and put the Completed status under the hash.
The result is the returned error, if any, and the status bucket afterwards. -/
def migrateLoop (env : MigrationEnv) :
    List (List Nat × Option (List Nat)) → Bucket → Except Err Unit × Bucket
  | [], paymentStatuses => (.ok (), paymentStatuses)
  | (_, none) :: rest, paymentStatuses => migrateLoop env rest paymentStatuses
  | (_, some v) :: rest, paymentStatuses =>
    match env.deserializeOutgoingPayment v with
    | .error e => (.error e, paymentStatuses)
    | .ok payment =>
      let paymentHash := env.sha256 payment.paymentPreimage
      migrateLoop env rest (paymentStatuses.Put paymentHash env.statusCompleted)

/-- The function paymentStatusesMigration on the transaction tx: the returned
error, if any, and the transaction afterwards. -/
def paymentStatusesMigration (env : MigrationEnv) (tx : Store) : Except Err Unit × Store :=
  match tx.payments with
  | none => (.error .noPaymentsCreated, tx)
  | some bucket =>
    let paymentStatuses := createBucketIfNotExists tx.paymentStatuses
    match migrateLoop env bucket.entries paymentStatuses with
    | (res, paymentStatuses1) => (res, ⟨tx.strayInputs, tx.payments, some paymentStatuses1⟩)

/-- A configuration like staticConfig whose script generator fails, with the
error 7. -/
def noScriptConfig (feeRate : Int) : PoolConfig (List Nat) where
  estimateFeePerVSize := fun _ => .ok feeRate
  buildWitness := fun so _ _ idx => .ok [[so.amt.toNat, idx]]
  genSweepScript := .error (.other 7)
  publishTransaction := fun _ => .ok ()

/-- The bucket method Get: the value under a key, nil (none) for a missing key
and for a nested bucket. -/
def Bucket.Get (b : Bucket) (k : List Nat) : Option (List Nat) :=
  match b.entries.find? (fun e => decide (e.1 = k)) with
  | some (_, some v) => some v
  | _ => none

/-- A payment deserializer, hash and status for concrete evaluations: a
payment is its bytes when there are at least two, the hash is the sum of the
bytes modulo 256, and the Completed status is the byte 2. -/
def sampleMigrationEnv : MigrationEnv where
  deserializeOutgoingPayment := fun v =>
    if 2 ≤ v.length then .ok ⟨v⟩ else .error (.other 5)
  sha256 := fun l => [l.sum % 256]
  statusCompleted := [2]

/-- A transaction whose payments bucket holds two payments and a nested
bucket, and that has no status bucket yet. -/
def sampleMigrationTx : Store :=
  ⟨none, some ⟨0, [([1], some [10, 20]), ([2], none), ([3], some [1, 1, 1])]⟩, none⟩

/-- A store whose stray-input bucket holds the bytes of encodeSample and then
a value of three bytes. -/
def truncatedStore : Store :=
  ⟨some ⟨2, [(putUint64 1, some (recordLayout varBytesCodec encodeSample)),
    (putUint64 2, some [0, 0, 0])]⟩, none, none⟩

/-- An integer reduced modulo 2^64 and read as a signed 64-bit integer. -/
def asSigned64 (x : Int) : Int :=
  if x % 2 ^ 64 < 2 ^ 63 then x % 2 ^ 64 else x % 2 ^ 64 - 2 ^ 64

/-- An integer fits in a signed 64-bit integer. -/
def fits64 (x : Int) : Prop := -(2 : Int) ^ 63 ≤ x ∧ x < 2 ^ 63

/-- Every fee product, every difference of a total and its fee, and every
partial sum of the running total fits in a signed 64-bit integer, the running
total starting at acc. -/
def partialSumsFit {SD : Type} (feePerVSize : Int) : Int → List (StrayInput SD) → Prop
  | _, [] => True
  | acc, s :: rest =>
    fits64 (feePerVSize * s.txVSize) ∧ fits64 (s.totalAmt - feePerVSize * s.txVSize) ∧
    fits64 (acc + (s.totalAmt - feePerVSize * s.txVSize)) ∧
    partialSumsFit feePerVSize (acc + (s.totalAmt - feePerVSize * s.txVSize)) rest

/-- The sum of the amounts of all inputs of all records, as an integer. -/
def sumInputAmounts {SD : Type} : List (StrayInput SD) → Int
  | [] => 0
  | s :: rest => (s.inputs.map (fun i => i.amt)).sum + sumInputAmounts rest

/-- The third BuildWitness call of staticConfig on the scenario. -/
def scenarioThirdCall : WitnessCall (List Nat) :=
  ⟨⟨50, ⟨testHash, 2⟩, 0, []⟩,
   ⟨2, [⟨⟨testHash, 0⟩, [[100, 0]]⟩, ⟨⟨testHash, 1⟩, [[101, 1]]⟩, ⟨⟨testHash, 2⟩, []⟩], []⟩,
   ⟨[⟨testHash, 0⟩, ⟨testHash, 1⟩, ⟨testHash, 2⟩], []⟩, 0⟩

/-- The first record of the scenario. -/
def scenarioFirstRecord : StrayInput (List Nat) :=
  ⟨10, 201, [⟨100, ⟨testHash, 0⟩, 0, []⟩, ⟨101, ⟨testHash, 1⟩, 0, []⟩]⟩

/-- What the witness loop leaves for input j of a record, counted from
position i: call j of the new calls is for that input, at position i + j, with
the cache hc and a transaction holding the outpoints outs, its build returned
a witness, and the final inputs txIn carry that witness at position i + j. -/
def WitnessedAt {SD : Type} (cfg : PoolConfig SD) (hc : TxSigHashes) (outs : List OutPoint)
    (inputs : List (SpendableOutput SD)) (calls : List (WitnessCall SD)) (txIn : List TxIn)
    (i j : Nat) : Prop :=
  ∃ c w, calls[j]? = some c ∧ inputs[j]? = some c.so ∧ c.idx = i + j ∧ c.hashCache = hc ∧
    c.txn.txIn.map (fun t => t.previousOutPoint) = outs ∧
    cfg.buildWitness c.so c.txn c.hashCache c.idx = .ok w ∧
    txIn[i + j]?.map (fun t => t.witness) = some w

set_option maxRecDepth 20000

/-! ## The codec: helper lemmas -/

theorem putUint64_eq_bigEndian (v : Nat) : putUint64 v = bigEndian 8 v := by
  simp [putUint64, bigEndian, Nat.div_div_eq_div_mul]

theorem putUint32_eq_bigEndian (v : Nat) : putUint32 v = bigEndian 4 v := by
  simp [putUint32, bigEndian, Nat.div_div_eq_div_mul]

theorem putUint16_eq_bigEndian (v : Nat) : putUint16 v = bigEndian 2 v := by
  simp [putUint16, bigEndian, Nat.div_div_eq_div_mul]

theorem bigEndian_length (w v : Nat) : (bigEndian w v).length = w := by
  induction w generalizing v with
  | zero => rfl
  | succ w ih => simp [bigEndian, ih]

theorem wrap64_uint64_putUint64 (x : Int) (h1 : -(2 : Int) ^ 63 ≤ x) (h2 : x < 2 ^ 63) :
    wrap64 (uint64 (putUint64 (toUint64 x))) = x := by
  simp only [wrap64, uint64, putUint64, toUint64, List.getD_cons_zero, List.getD_cons_succ]
  omega

theorem uint32_putUint32 (v : Nat) (h : v < 2 ^ 32) : uint32 (putUint32 v) = v := by
  simp only [uint32, putUint32, List.getD_cons_zero, List.getD_cons_succ]
  omega

theorem uint16_putUint16 (v : Nat) (h : v < 2 ^ 16) : uint16 (putUint16 v) = v := by
  simp only [uint16, putUint16, List.getD_cons_zero, List.getD_cons_succ]
  omega

theorem read_append (a p rest : List Nat) (hl : a.length = p.length) (hp : 0 < p.length) :
    read (a ++ rest) p = .ok (a, rest) := by
  have h1 : (a ++ rest).length ≠ 0 := by rw [List.length_append]; omega
  have h2 : min p.length (a ++ rest).length = a.length := by rw [List.length_append]; omega
  simp only [read, h1, if_false, h2]
  simp [hl]

theorem readFullLimited_append (a rest : List Nat) (lim : Nat) (hl : a.length ≤ lim) :
    readFullLimited (a ++ rest) lim a.length = .ok (a, rest, lim - a.length) := by
  have h1 : a.length ≤ ((a ++ rest).take lim).length := by
    rw [List.length_take, List.length_append]; omega
  simp only [readFullLimited, h1, if_true]
  congr 2
  · rw [List.take_take]; simp [hl]
  · simp

theorem readOutpoint_append (h b rest : List Nat) (hh : h.length = 32) (hb : b.length = 4) :
    readOutpoint (h ++ (b ++ rest)) 40 = .ok (⟨h, uint32 b⟩, rest) := by
  have e1 := readFullLimited_append h (b ++ rest) 40 (by omega)
  rw [hh] at e1
  have e2 := readFullLimited_append b rest 8 (by omega)
  rw [hb] at e2
  simp only [readOutpoint, e1, e2]


theorem encodeInputs_layout {SD : Type} (codec : SignDescCodec SD)
    (is : List (SpendableOutput SD)) (w : List Nat)
    (hw : ∀ i ∈ is, ∃ d, codec.write i.signDesc = .ok d) :
    encodeInputs codec w is = .ok (w ++ inputsLayout codec is) := by
  induction is generalizing w with
  | nil => simp [encodeInputs, inputsLayout]
  | cons i rest ih =>
    obtain ⟨d, hd⟩ := hw i (List.mem_cons_self _ _)
    have hrest : ∀ j ∈ rest, ∃ d, codec.write j.signDesc = .ok d :=
      fun j hj => hw j (List.mem_cons_of_mem _ hj)
    simp only [encodeInputs, encodeInput, writeOutpoint, hd, ih _ hrest, inputsLayout,
      entryLayout, descBytes, putUint64_eq_bigEndian, putUint32_eq_bigEndian,
      putUint16_eq_bigEndian, List.append_assoc]

theorem inputsLayout_length {SD : Type} (codec : SignDescCodec SD)
    (is : List (SpendableOutput SD)) (hh : ∀ i ∈ is, i.outpoint.hash.length = 32) :
    (inputsLayout codec is).length =
      (is.map (fun i => 46 + (descBytes codec i.signDesc).length)).sum := by
  induction is with
  | nil => rfl
  | cons i rest ih =>
    have h1 := hh i (List.mem_cons_self _ _)
    have h2 := ih (fun j hj => hh j (List.mem_cons_of_mem _ hj))
    simp only [inputsLayout, entryLayout, List.length_append, bigEndian_length, h1, h2,
      List.map_cons, List.sum_cons]
    omega

theorem Encode_recordLayout {SD : Type} (codec : SignDescCodec SD) (s : StrayInput SD)
    (hw : ∀ i ∈ s.inputs, ∃ d, codec.write i.signDesc = .ok d) :
    Encode codec s [] = .ok (recordLayout codec s) := by
  simp only [Encode, encodeInputs_layout codec s.inputs _ hw, recordLayout,
    putUint64_eq_bigEndian, List.nil_append, List.append_assoc]

theorem recordLayout_length {SD : Type} (codec : SignDescCodec SD) (s : StrayInput SD)
    (hh : ∀ i ∈ s.inputs, i.outpoint.hash.length = 32) :
    (recordLayout codec s).length =
      16 + (s.inputs.map (fun i => 46 + (descBytes codec i.signDesc).length)).sum := by
  simp only [recordLayout, List.length_append, bigEndian_length,
    inputsLayout_length codec s.inputs hh]
  omega

theorem decodeLoop_inputsLayout {SD : Type} (codec : SignDescCodec SD)
    (is : List (SpendableOutput SD)) :
    ∀ (fuel : Nat) (scratch : List Nat) (acc : List (SpendableOutput SD)),
    is.length < fuel → scratch.length = 8 →
    (∀ i ∈ is, WellFormedOutput i) → (∀ i ∈ is, CodecRoundTrips codec i) →
    decodeLoop codec fuel scratch acc (inputsLayout codec is) = some (Err.eof, acc ++ is) := by
  induction is with
  | nil =>
    intro fuel scratch acc hf _ _ _
    cases fuel with
    | zero => simp at hf
    | succ fuel => simp [decodeLoop, inputsLayout, read]
  | cons i rest ih =>
    intro fuel scratch acc hf hs hwf hc
    cases fuel with
    | zero => simp at hf
    | succ fuel =>
      obtain ⟨⟨ha1, ha2⟩, ⟨hh, _⟩, hi, ht⟩ := hwf i (List.mem_cons_self _ _)
      obtain ⟨d, hd, hr⟩ := hc i (List.mem_cons_self _ _)
      have hlen : rest.length < fuel := by simp at hf; omega
      have e1 : read (bigEndian 8 (toUint64 i.amt) ++ (i.outpoint.hash ++
          (bigEndian 4 i.outpoint.index ++ (bigEndian 2 (i.witnessType % 2 ^ 16) ++
          (d ++ inputsLayout codec rest))))) scratch =
          .ok (bigEndian 8 (toUint64 i.amt), i.outpoint.hash ++
          (bigEndian 4 i.outpoint.index ++ (bigEndian 2 (i.witnessType % 2 ^ 16) ++
          (d ++ inputsLayout codec rest)))) :=
        read_append _ _ _ (by rw [bigEndian_length, hs]) (by omega)
      have e2 := readOutpoint_append i.outpoint.hash (bigEndian 4 i.outpoint.index)
        (bigEndian 2 (i.witnessType % 2 ^ 16) ++ (d ++ inputsLayout codec rest)) hh
        (bigEndian_length _ _)
      have e3 : read (bigEndian 2 (i.witnessType % 2 ^ 16) ++ (d ++ inputsLayout codec rest))
          ((bigEndian 8 (toUint64 i.amt)).take 2) =
          .ok (bigEndian 2 (i.witnessType % 2 ^ 16), d ++ inputsLayout codec rest) :=
        read_append _ _ _ (by simp [bigEndian_length]) (by simp [bigEndian_length])
      have hs2 : (bigEndian 2 (i.witnessType % 2 ^ 16) ++
          (bigEndian 8 (toUint64 i.amt)).drop 2).length = 8 := by
        simp [bigEndian_length]
      have hamt : wrap64 (uint64 (bigEndian 8 (toUint64 i.amt))) = i.amt := by
        rw [← putUint64_eq_bigEndian]; exact wrap64_uint64_putUint64 _ ha1 ha2
      have hidx : uint32 (bigEndian 4 i.outpoint.index) = i.outpoint.index := by
        rw [← putUint32_eq_bigEndian]; exact uint32_putUint32 _ hi
      have htag : uint16 ((bigEndian 2 (i.witnessType % 2 ^ 16) ++
          (bigEndian 8 (toUint64 i.amt)).drop 2).take 2) = i.witnessType := by
        rw [List.take_left' (bigEndian_length _ _), ← putUint16_eq_bigEndian,
          uint16_putUint16 _ (Nat.mod_lt _ (by norm_num)), Nat.mod_eq_of_lt ht]
      have ih2 := ih fuel _ (acc ++ [i]) hlen hs2
        (fun j hj => hwf j (List.mem_cons_of_mem _ hj))
        (fun j hj => hc j (List.mem_cons_of_mem _ hj))
      simp only [inputsLayout, entryLayout, descBytes, hd, List.append_assoc, decodeLoop, e1,
        e2, e3, hr, hamt, hidx, htag, List.drop_left, ih2, List.singleton_append]

theorem read_ok (r p p1 r1 : List Nat) (h : read r p = .ok (p1, r1)) :
    p1.length = p.length ∧ r1.length + min p.length r.length = r.length ∧ r.length ≠ 0 := by
  unfold read at h
  split at h
  · cases h
  · rename_i hne
    simp only [Except.ok.injEq, Prod.mk.injEq] at h
    obtain ⟨h1, h2⟩ := h
    subst h1; subst h2
    simp only [List.length_append, List.length_take, List.length_drop]
    omega

theorem readFullLimited_ok (r : List Nat) (lim n : Nat) (a r1 : List Nat) (lim1 : Nat)
    (h : readFullLimited r lim n = .ok (a, r1, lim1)) : r1.length ≤ r.length := by
  unfold readFullLimited at h
  split at h
  · simp only [Except.ok.injEq, Prod.mk.injEq] at h
    obtain ⟨_, h2, _⟩ := h
    subst h2
    simp only [List.length_drop]
    omega
  · split at h <;> cases h

theorem readOutpoint_ok (r : List Nat) (lim : Nat) (o : OutPoint) (r2 : List Nat)
    (h : readOutpoint r lim = .ok (o, r2)) : r2.length ≤ r.length := by
  unfold readOutpoint at h
  split at h
  · cases h
  · rename_i hd r1 lim1 e1
    split at h
    · cases h
    · rename_i ib r3 lim2 e2
      simp only [Except.ok.injEq, Prod.mk.injEq] at h
      obtain ⟨_, h2⟩ := h
      subst h2
      have := readFullLimited_ok _ _ _ _ _ _ e1
      have := readFullLimited_ok _ _ _ _ _ _ e2
      omega

theorem decodeLoop_fuel {SD : Type} (codec : SignDescCodec SD) (fuel : Nat) :
    ∀ (scratch : List Nat) (inputs : List (SpendableOutput SD)) (r : List Nat),
    r.length < fuel → scratch.length = 8 →
    decodeLoop codec fuel scratch inputs r ≠ none := by
  induction fuel with
  | zero => intro _ _ r hf; omega
  | succ fuel ih =>
    intro scratch inputs r hf hs
    unfold decodeLoop
    split
    · simp
    · rename_i scratch1 r1 e1
      obtain ⟨hl1, hr1, hne⟩ := read_ok _ _ _ _ e1
      simp only []
      split
      · simp
      · rename_i outpoint r2 e2
        have hr2 := readOutpoint_ok _ _ _ _ e2
        split
        · simp
        · rename_i tag r3 e3
          obtain ⟨hl3, hr3, _⟩ := read_ok _ _ _ _ e3
          split
          · simp
          · rename_i signDesc n e4
            apply ih
            · simp only [List.length_drop]; omega
            · simp only [List.length_append, List.length_drop, hl3, List.length_take, hl1]
              omega

/-- The stand-in descriptor codec round-trips every descriptor. -/
theorem varBytesCodec_roundTrips (i : SpendableOutput (List Nat)) :
    CodecRoundTrips varBytesCodec i := by
  refine ⟨i.signDesc.length :: i.signDesc, rfl, ?_⟩
  intro rest
  simp [varBytesCodec]

/-- Every entry holds at least one byte, so the layout of the inputs is at
least as long as the list of inputs. -/
theorem length_le_inputsLayout_length {SD : Type} (codec : SignDescCodec SD)
    (is : List (SpendableOutput SD)) : is.length ≤ (inputsLayout codec is).length := by
  induction is with
  | nil => simp [inputsLayout]
  | cons i rest ih =>
    simp only [inputsLayout, entryLayout, List.length_append, bigEndian_length,
      List.length_cons]
    omega

/-! ## The sweep builder: helper lemmas -/

theorem wrap64_of_fits (x : Int) (h1 : -(2 : Int) ^ 63 ≤ x) (h2 : x < 2 ^ 63) : wrap64 x = x := by
  unfold wrap64; omega

theorem wrap64_step (t a p b c : Int) :
    wrap64 (wrap64 (t + wrap64 (a - wrap64 p)) + b - c) = wrap64 (t + (a + b) - (p + c)) := by
  unfold wrap64; omega

theorem wrap64_idem (x : Int) : wrap64 (wrap64 x) = wrap64 x := by
  unfold wrap64; omega

theorem map_set_previousOutPoint (l : List TxIn) (i : Nat) (ti : TxIn) (w : List (List Nat))
    (h : l.get? i = some ti) :
    (l.set i ⟨ti.previousOutPoint, w⟩).map (fun t => t.previousOutPoint) =
      l.map (fun t => t.previousOutPoint) := by
  induction l generalizing i with
  | nil => simp
  | cons x xs ih =>
    cases i with
    | zero =>
      simp only [List.get?_cons_zero, Option.some.injEq] at h
      subst h
      simp
    | succ i =>
      simp only [List.get?_cons_succ] at h
      simp [ih i h]

theorem addWitness_ok {SD : Type} (cfg : PoolConfig SD) (txn txn1 : MsgTx) (hc : TxSigHashes)
    (idx : Nat) (so : SpendableOutput SD) (h : addWitness cfg txn hc idx so = .ok txn1) :
    txn1.version = txn.version ∧
    txn1.txIn.map (fun t => t.previousOutPoint) = txn.txIn.map (fun t => t.previousOutPoint) ∧
    txn1.txOut = txn.txOut := by
  unfold addWitness at h
  split at h
  · cases h
  · split at h
    · cases h
    · rename_i ti hti
      simp only [Except.ok.injEq] at h
      subst h
      exact ⟨rfl, map_set_previousOutPoint _ _ _ _ hti, rfl⟩

theorem witnessLoop_ok {SD : Type} (cfg : PoolConfig SD) (hc : TxSigHashes)
    (inputs : List (SpendableOutput SD)) :
    ∀ (i : Nat) (txn txn2 : MsgTx) (calls : List (WitnessCall SD)),
    (witnessLoop cfg hc i inputs txn calls).1 = .ok txn2 →
    txn2.version = txn.version ∧
    txn2.txIn.map (fun t => t.previousOutPoint) = txn.txIn.map (fun t => t.previousOutPoint) ∧
    txn2.txOut = txn.txOut := by
  induction inputs with
  | nil =>
    intro i txn txn2 calls h
    simp only [witnessLoop, Except.ok.injEq] at h
    subst h
    exact ⟨rfl, rfl, rfl⟩
  | cons input rest ih =>
    intro i txn txn2 calls h
    unfold witnessLoop at h
    split at h
    · cases h
    · rename_i txn1 e1
      obtain ⟨a1, a2, a3⟩ := addWitness_ok _ _ _ _ _ _ e1
      obtain ⟨b1, b2, b3⟩ := ih _ _ _ _ h
      exact ⟨b1.trans a1, b2.trans a2, b3.trans a3⟩

theorem addTxIns_eq {SD : Type} (inputs : List (SpendableOutput SD)) :
    ∀ txn : MsgTx, addTxIns txn inputs =
      ⟨txn.version, txn.txIn ++ inputs.map (fun i => ⟨i.outpoint, []⟩), txn.txOut⟩ := by
  induction inputs with
  | nil => intro txn; simp [addTxIns]
  | cons input rest ih => intro txn; simp [addTxIns, ih, AddTxIn]

theorem recordsLoop_ok {SD : Type} (cfg : PoolConfig SD) (fee : Int)
    (recs : List (StrayInput SD)) :
    ∀ (txn txn2 : MsgTx) (total total2 : Int) (calls : List (WitnessCall SD)),
    wrap64 total = total →
    (recordsLoop cfg fee recs txn total calls).1 = .ok (txn2, total2) →
    txn2.version = txn.version ∧
    txn2.txIn.map (fun t => t.previousOutPoint) =
      txn.txIn.map (fun t => t.previousOutPoint) ++ allOutpoints recs ∧
    txn2.txOut = txn.txOut ∧
    total2 = wrap64 (total + sumTotalAmt recs - sumFees fee recs) := by
  induction recs with
  | nil =>
    intro txn txn2 total total2 calls ht h
    simp only [recordsLoop, Except.ok.injEq, Prod.mk.injEq] at h
    obtain ⟨h1, h2⟩ := h
    subst h1; subst h2
    simp [allOutpoints, sumTotalAmt, sumFees, ht]
  | cons s rest ih =>
    intro txn txn2 total total2 calls _ h
    unfold recordsLoop at h
    simp only [] at h
    split at h
    · cases h
    · rename_i txn1 calls1 e1
      have hw := witnessLoop_ok cfg _ s.inputs 0 _ txn1 calls (by rw [e1])
      obtain ⟨a1, a2, a3⟩ := hw
      obtain ⟨b1, b2, b3, b4⟩ := ih _ _ _ _ _ (wrap64_idem _) h
      rw [addTxIns_eq] at a1 a2 a3
      simp only [List.map_append, List.map_map] at a2
      refine ⟨b1.trans a1, ?_, b3.trans a3, ?_⟩
      · rw [b2, a2]
        simp [allOutpoints, Function.comp_def]
      · rw [b4]
        simp only [FeeForVSize, sumTotalAmt, sumFees]
        exact wrap64_step _ _ _ _ _


theorem genSweepTx_ok {SD : Type} (cfg : PoolConfig SD) (pkScript : List Nat)
    (recs : List (StrayInput SD)) (tx : MsgTx)
    (h : (genSweepTx cfg pkScript recs).1 = .ok tx) :
    (assembleSweepTx cfg pkScript recs).1 = .ok tx ∧ CheckTransactionSanity tx = .ok () := by
  unfold genSweepTx at h
  split at h
  · cases h
  · rename_i txn calls e1
    split at h
    · cases h
    · rename_i u e2
      simp only [Except.ok.injEq] at h
      subst h
      exact ⟨by rw [e1], e2⟩

theorem assembleSweepTx_ok {SD : Type} (cfg : PoolConfig SD) (pkScript : List Nat)
    (recs : List (StrayInput SD)) (tx : MsgTx)
    (h : (assembleSweepTx cfg pkScript recs).1 = .ok tx) :
    ∃ fee, cfg.estimateFeePerVSize 2 = .ok fee ∧
      tx = ⟨2, tx.txIn, [⟨wrap64 (sumTotalAmt recs - sumFees fee recs), pkScript⟩]⟩ ∧
      tx.txIn.map (fun t => t.previousOutPoint) = allOutpoints recs := by
  unfold assembleSweepTx at h
  split at h
  · cases h
  · rename_i fee e0
    split at h
    · cases h
    · rename_i txn total calls e1
      simp only [Except.ok.injEq] at h
      subst h
      obtain ⟨a1, a2, a3, a4⟩ := recordsLoop_ok cfg fee recs (NewMsgTx 2) txn 0 total []
        (by decide) (by rw [e1])
      refine ⟨fee, e0, ?_, ?_⟩
      · simp only [AddTxOut, a1, a3, a4, NewMsgTx, List.nil_append, zero_add]
      · simpa [AddTxOut, NewMsgTx] using a2

theorem CheckTransactionSanity_ok (tx : MsgTx) :
    CheckTransactionSanity tx = .ok () ↔
    (tx.txIn ≠ [] ∧ (∀ o ∈ tx.txOut, 0 ≤ o.value ∧ o.value ≤ MaxSatoshi) ∧
      (tx.txIn.map (fun t => t.previousOutPoint)).Nodup) := by
  unfold CheckTransactionSanity
  constructor
  · intro h
    split at h
    · cases h
    · rename_i h1
      split at h
      · cases h
      · rename_i h2
        split at h
        · cases h
        · rename_i h3
          refine ⟨?_, ?_, ?_⟩
          · intro hnil; apply h1; simp [hnil]
          · intro o ho
            simp only [List.any_eq_true, decide_eq_true_eq, not_exists, not_and, not_or,
              not_lt] at h2
            exact h2 o ho
          · simpa using h3
  · rintro ⟨h1, h2, h3⟩
    have e1 : ¬ tx.txIn.length = 0 := by
      intro h; exact h1 (List.length_eq_zero.mp h)
    have e2 : ¬ (tx.txOut.any (fun o => decide (o.value < 0 ∨ MaxSatoshi < o.value)) = true) := by
      simp only [List.any_eq_true, decide_eq_true_eq, not_exists, not_and, not_or, not_lt]
      exact h2
    simp only [e1, e2, h3, if_false, not_true_eq_false]
    simp


theorem allOutpoints_length {SD : Type} (recs : List (StrayInput SD)) :
    (allOutpoints recs).length = (recs.map (fun s => s.inputs.length)).sum := by
  induction recs with
  | nil => rfl
  | cons s rest ih => simp [allOutpoints, ih]

theorem Decode_recordLayout {SD : Type} (codec : SignDescCodec SD) (s : StrayInput SD)
    (hwf : WellFormed s) (hc : ∀ i ∈ s.inputs, CodecRoundTrips codec i) :
    ∃ bytes, Encode codec s [] = .ok bytes ∧ Decode codec emptyStrayInput bytes = .ok s := by
  obtain ⟨⟨hv1, hv2⟩, ⟨ht1, ht2⟩, hin⟩ := hwf
  have hw : ∀ i ∈ s.inputs, ∃ d, codec.write i.signDesc = .ok d := by
    intro i hi
    obtain ⟨d, hd, _⟩ := hc i hi
    exact ⟨d, hd⟩
  refine ⟨recordLayout codec s, Encode_recordLayout codec s hw, ?_⟩
  have e1 : read (bigEndian 8 (toUint64 s.txVSize) ++ (bigEndian 8 (toUint64 s.totalAmt) ++
      inputsLayout codec s.inputs)) [0, 0, 0, 0, 0, 0, 0, 0] =
      .ok (bigEndian 8 (toUint64 s.txVSize), bigEndian 8 (toUint64 s.totalAmt) ++
      inputsLayout codec s.inputs) :=
    read_append _ _ _ (by simp [bigEndian_length]) (by simp)
  have e2 : read (bigEndian 8 (toUint64 s.totalAmt) ++ inputsLayout codec s.inputs)
      (bigEndian 8 (toUint64 s.txVSize)) =
      .ok (bigEndian 8 (toUint64 s.totalAmt), inputsLayout codec s.inputs) :=
    read_append _ _ _ (by simp [bigEndian_length]) (by simp [bigEndian_length])
  have hvs : wrap64 (uint64 (bigEndian 8 (toUint64 s.txVSize))) = s.txVSize := by
    rw [← putUint64_eq_bigEndian]; exact wrap64_uint64_putUint64 _ hv1 hv2
  have hta : wrap64 (uint64 (bigEndian 8 (toUint64 s.totalAmt))) = s.totalAmt := by
    rw [← putUint64_eq_bigEndian]; exact wrap64_uint64_putUint64 _ ht1 ht2
  have hloop := decodeLoop_inputsLayout codec s.inputs ((inputsLayout codec s.inputs).length + 1)
    (bigEndian 8 (toUint64 s.totalAmt)) [] (by
      have := length_le_inputsLayout_length codec s.inputs
      omega) (bigEndian_length _ _) hin hc
  simp only [Decode, recordLayout, e1, e2, emptyStrayInput, hloop, hvs, hta, List.nil_append]
  simp

/-! ## The codec: claims -/

/-- C1: for every well-formed record whose descriptors the external codec
round-trips, Encode succeeds and Decode of a fresh empty record over the bytes
written succeeds and yields the same record: virtual size, total amount and
the inputs in order, each with its amount, outpoint, witness type and
descriptor. -/
theorem Decode_Encode_roundtrip {SD : Type} (codec : SignDescCodec SD) (s : StrayInput SD)
    (hwf : WellFormed s) (hc : ∀ i ∈ s.inputs, CodecRoundTrips codec i) :
    ∃ bytes, Encode codec s [] = .ok bytes ∧ Decode codec emptyStrayInput bytes = .ok s :=
  Decode_recordLayout codec s hwf hc

/-- C1, on the record of the serialization test. -/
theorem Decode_Encode_roundtrip_witness :
    WellFormed encodeSample ∧
    ∃ bytes, Encode varBytesCodec encodeSample [] = .ok bytes ∧
      Decode varBytesCodec emptyStrayInput bytes = .ok encodeSample :=
  ⟨by unfold WellFormed WellFormedOutput; decide,
   Decode_Encode_roundtrip varBytesCodec encodeSample
     (by unfold WellFormed WellFormedOutput; decide)
     (fun i _ => varBytesCodec_roundTrips i)⟩

/-- C4: when the descriptor codec writes every descriptor, Encode on an empty
buffer writes exactly the layout of the specification: the 8-byte big-endian
patterns of txVSize and totalAmt, then per input the 8-byte amount, the
32-byte hash, the 4-byte index, the 2-byte witness type tag and the descriptor
bytes; its length is 16 plus, per input, 46 plus the descriptor length. -/
theorem Encode_layout {SD : Type} (codec : SignDescCodec SD) (s : StrayInput SD)
    (hw : ∀ i ∈ s.inputs, ∃ d, codec.write i.signDesc = .ok d)
    (hh : ∀ i ∈ s.inputs, i.outpoint.hash.length = 32) :
    Encode codec s [] = .ok (recordLayout codec s) ∧
    (recordLayout codec s).length =
      16 + (s.inputs.map (fun i => 46 + (descBytes codec i.signDesc).length)).sum :=
  ⟨Encode_recordLayout codec s hw, recordLayout_length codec s hh⟩

/-- C4, on the record of the serialization test: 16 + 2 * (46 + 4) bytes. -/
theorem Encode_layout_witness :
    Encode varBytesCodec encodeSample [] = .ok (recordLayout varBytesCodec encodeSample) ∧
    (recordLayout varBytesCodec encodeSample).length = 116 :=
  Encode_layout varBytesCodec encodeSample (fun _ _ => ⟨_, rfl⟩) (by decide)

/-- C2 (the code accepts what the claim rejects): a stream that stops after
1 of the 8 bytes of totalAmt, and a stream that stops after 3 of the 8 bytes of
an input amount, both make Decode return success; the total amount of the
first is read from a buffer still holding bytes of the virtual size. -/
theorem Decode_truncated_midfield {SD : Type} (codec : SignDescCodec SD) :
    Decode codec emptyStrayInput [0, 0, 0, 0, 0, 0, 0, 10, 1] =
      .ok ⟨10, 72057594037927946, []⟩ ∧
    Decode codec emptyStrayInput
      [0, 0, 0, 0, 0, 0, 0, 10, 0, 0, 0, 0, 0, 0, 0, 201, 0, 0, 100] =
      .ok ⟨10, 201, []⟩ :=
  ⟨rfl, rfl⟩

/-- C3 (the code accepts what the claim rejects): after a complete header, a
stream that stops right after the 8-byte amount of an entry, right after its
32-byte hash, or right after its 4-byte index makes Decode return success with
no inputs; so does one that stops right after the 2-byte witness type when the
descriptor reader reports io.EOF on an exhausted stream. -/
theorem Decode_truncated_at_field_boundary {SD : Type} (codec : SignDescCodec SD) :
    Decode codec emptyStrayInput
      ([0, 0, 0, 0, 0, 0, 0, 10, 0, 0, 0, 0, 0, 0, 0, 201] ++ [0, 0, 0, 0, 0, 0, 0, 100]) =
      .ok ⟨10, 201, []⟩ ∧
    Decode codec emptyStrayInput
      ([0, 0, 0, 0, 0, 0, 0, 10, 0, 0, 0, 0, 0, 0, 0, 201] ++ [0, 0, 0, 0, 0, 0, 0, 100] ++
        testHash) = .ok ⟨10, 201, []⟩ ∧
    Decode codec emptyStrayInput
      ([0, 0, 0, 0, 0, 0, 0, 10, 0, 0, 0, 0, 0, 0, 0, 201] ++ [0, 0, 0, 0, 0, 0, 0, 100] ++
        testHash ++ [0, 0, 0, 1]) = .ok ⟨10, 201, []⟩ ∧
    Decode varBytesCodec emptyStrayInput
      ([0, 0, 0, 0, 0, 0, 0, 10, 0, 0, 0, 0, 0, 0, 0, 201] ++ [0, 0, 0, 0, 0, 0, 0, 100] ++
        testHash ++ [0, 0, 0, 1] ++ [0, 0]) = .ok ⟨10, 201, []⟩ :=
  ⟨rfl, rfl, rfl, rfl⟩

/-! ## The sweep builder: claims -/

/-- C5 (amended): when genSweepTx returns a transaction and the exact integer
sum of totalAmt minus sum of feeRate * txVSize lies in the signed 64-bit range,
the single output of the transaction has exactly that value. -/
theorem genSweepTx_value {SD : Type} (cfg : PoolConfig SD) (pkScript : List Nat)
    (recs : List (StrayInput SD)) (tx : MsgTx) (fee : Int)
    (hfee : cfg.estimateFeePerVSize 2 = .ok fee)
    (h : (genSweepTx cfg pkScript recs).1 = .ok tx)
    (hlo : -(2 : Int) ^ 63 ≤ sumTotalAmt recs - sumFees fee recs)
    (hhi : sumTotalAmt recs - sumFees fee recs < 2 ^ 63) :
    tx.txOut = [⟨sumTotalAmt recs - sumFees fee recs, pkScript⟩] := by
  obtain ⟨ha, _⟩ := genSweepTx_ok cfg pkScript recs tx h
  obtain ⟨fee2, hfee2, htx, _⟩ := assembleSweepTx_ok cfg pkScript recs tx ha
  rw [hfee] at hfee2
  cases hfee2
  rw [htx, wrap64_of_fits _ hlo hhi]

/-- C5, on the scenario of the specification: genSweepTx returns a transaction
whose output value is 221. -/
theorem genSweepTx_value_witness :
    (genSweepTx (staticConfig 2) [1, 2, 3] scenarioRecords).1 = .ok scenarioTx ∧
    scenarioTx.txOut = [⟨221, [1, 2, 3]⟩] :=
  ⟨rfl, genSweepTx_value (staticConfig 2) [1, 2, 3] scenarioRecords scenarioTx 2 rfl rfl
    (by decide) (by decide)⟩

/-- C5 as stated fails: at the fee rate 2^32 a record of virtual size 2^32 and
total amount 0 makes genSweepTx return a transaction whose output value is 0,
while the exact integer total minus fees is -2^64. -/
theorem genSweepTx_value_counterexample :
    (genSweepTx (staticConfig (2 ^ 32)) [1, 2, 3] (overflowRecords 0)).1 =
      .ok ⟨2, [⟨⟨testHash, 0⟩, [[0, 0]]⟩], [⟨0, [1, 2, 3]⟩]⟩ ∧
    sumTotalAmt (overflowRecords 0) - sumFees (2 ^ 32) (overflowRecords 0) = -(2 : Int) ^ 64 ∧
    (0 : Int) ≠ -(2 : Int) ^ 64 :=
  ⟨rfl, by decide, by decide⟩

/-- C6 (amended): when the aggregate fees exceed the aggregate amounts and the
exact difference is not below -2^63, genSweepTx returns an error and no
transaction; and no transaction returned by genSweepTx has a negative output
value. -/
theorem genSweepTx_negative_total {SD : Type} (cfg : PoolConfig SD) (pkScript : List Nat)
    (recs : List (StrayInput SD)) (fee : Int)
    (hfee : cfg.estimateFeePerVSize 2 = .ok fee) :
    (sumTotalAmt recs < sumFees fee recs →
      -(2 : Int) ^ 63 ≤ sumTotalAmt recs - sumFees fee recs →
      ∃ e, (genSweepTx cfg pkScript recs).1 = .error e) ∧
    (∀ tx, (genSweepTx cfg pkScript recs).1 = .ok tx → ∀ o ∈ tx.txOut, 0 ≤ o.value) := by
  have key : ∀ tx, (genSweepTx cfg pkScript recs).1 = .ok tx →
      tx.txOut = [⟨wrap64 (sumTotalAmt recs - sumFees fee recs), pkScript⟩] ∧
      ∀ o ∈ tx.txOut, 0 ≤ o.value := by
    intro tx hres
    obtain ⟨ha, hs⟩ := genSweepTx_ok cfg pkScript recs tx hres
    obtain ⟨fee2, hfee2, htx, _⟩ := assembleSweepTx_ok cfg pkScript recs tx ha
    rw [hfee] at hfee2
    cases hfee2
    obtain ⟨_, hv, _⟩ := (CheckTransactionSanity_ok tx).mp hs
    exact ⟨by rw [htx], fun o ho => (hv o ho).1⟩
  refine ⟨?_, fun tx hres => (key tx hres).2⟩
  intro hneg hlo
  cases hres : (genSweepTx cfg pkScript recs).1 with
  | error e => exact ⟨e, rfl⟩
  | ok tx =>
    exfalso
    obtain ⟨hout, hv⟩ := key tx hres
    have h0 := hv ⟨wrap64 (sumTotalAmt recs - sumFees fee recs), pkScript⟩ (by rw [hout]; simp)
    rw [wrap64_of_fits _ hlo (by omega)] at h0
    simp only at h0
    omega

/-- C6, on a record of total amount 5 and virtual size 10 at the fee rate 2. -/
theorem genSweepTx_negative_total_witness :
    sumTotalAmt dustRecords < sumFees 2 dustRecords ∧
    ∃ e, (genSweepTx (staticConfig 2) [1, 2, 3] dustRecords).1 = .error e :=
  ⟨by decide, (genSweepTx_negative_total (staticConfig 2) [1, 2, 3] dustRecords 2 rfl).1
    (by decide) (by decide)⟩

/-- C6 as stated fails: at the fee rate 2^32 a record of virtual size 2^32 and
total amount 5 has fees (2^64) above its amount, yet genSweepTx returns a
transaction, whose output value 5 comes from the wrapped fee product. -/
theorem genSweepTx_negative_total_counterexample :
    sumTotalAmt (overflowRecords 5) < sumFees (2 ^ 32) (overflowRecords 5) ∧
    (genSweepTx (staticConfig (2 ^ 32)) [1, 2, 3] (overflowRecords 5)).1 =
      .ok ⟨2, [⟨⟨testHash, 0⟩, [[5, 0]]⟩], [⟨5, [1, 2, 3]⟩]⟩ :=
  ⟨by decide, rfl⟩

/-- C7 (the code misplaces witnesses): on the two records of the scenario the
third input appended (amount 50, transaction input 2) has BuildWitness called
with position 0, its witness replaces the one of transaction input 0, and
transaction input 2 of the returned transaction carries no witness. -/
theorem genSweepTx_witness_misplaced :
    (genSweepTx (staticConfig 2) [1, 2, 3] scenarioRecords).1 = .ok scenarioTx ∧
    (genSweepTx (staticConfig 2) [1, 2, 3] scenarioRecords).2.map (fun c => (c.so.amt, c.idx)) =
      [(100, 0), (101, 1), (50, 0)] ∧
    scenarioTx.txIn.map (fun t => t.witness) = [[[50, 0]], [[101, 1]], []] :=
  ⟨rfl, rfl, rfl⟩

/-- C8 (the code builds one cache per record): on the two records of the
scenario, which hold three inputs, the first two BuildWitness calls receive a
cache over two outpoints and a transaction with two inputs; only the third
call sees all three, with another cache. -/
theorem genSweepTx_hashCache_per_record :
    (allOutpoints scenarioRecords).length = 3 ∧
    (genSweepTx (staticConfig 2) [1, 2, 3] scenarioRecords).2.map
      (fun c => (c.hashCache.prevOuts.length, c.txn.txIn.length)) = [(2, 2), (2, 2), (3, 3)] :=
  ⟨rfl, rfl⟩

/-- C9: a transaction returned by genSweepTx has version 2, its input
outpoints are those of all inputs of all records in record order then input
order (so their number is the sum of the input counts), and it has exactly one
output, which pays to the destination script. -/
theorem genSweepTx_shape {SD : Type} (cfg : PoolConfig SD) (pkScript : List Nat)
    (recs : List (StrayInput SD)) (tx : MsgTx)
    (h : (genSweepTx cfg pkScript recs).1 = .ok tx) :
    tx.version = 2 ∧
    tx.txIn.map (fun t => t.previousOutPoint) = allOutpoints recs ∧
    tx.txIn.length = (recs.map (fun s => s.inputs.length)).sum ∧
    ∃ v, tx.txOut = [⟨v, pkScript⟩] := by
  obtain ⟨ha, _⟩ := genSweepTx_ok cfg pkScript recs tx h
  obtain ⟨fee, _, htx, hout⟩ := assembleSweepTx_ok cfg pkScript recs tx ha
  refine ⟨by rw [htx], hout, ?_, ⟨_, by rw [htx]⟩⟩
  rw [← allOutpoints_length, ← hout, List.length_map]

/-- C9, on the scenario of the specification. -/
theorem genSweepTx_shape_witness :
    scenarioTx.version = 2 ∧
    scenarioTx.txIn.map (fun t => t.previousOutPoint) = allOutpoints scenarioRecords ∧
    scenarioTx.txIn.length = (scenarioRecords.map (fun s => s.inputs.length)).sum ∧
    ∃ v, scenarioTx.txOut = [⟨v, [1, 2, 3]⟩] :=
  genSweepTx_shape (staticConfig 2) [1, 2, 3] scenarioRecords scenarioTx rfl

/-- C10: a transaction returned by genSweepTx has at least one input, output
values between 0 and MaxSatoshi, and pairwise distinct input outpoints; when
the assembled transaction violates one of these, and in particular when the
records hold no input, hold an outpoint twice, or the net total placed in the
output is negative, genSweepTx returns an error and no transaction. -/
theorem genSweepTx_sanity {SD : Type} (cfg : PoolConfig SD) (pkScript : List Nat)
    (recs : List (StrayInput SD)) :
    (∀ tx, (genSweepTx cfg pkScript recs).1 = .ok tx →
      tx.txIn ≠ [] ∧ (∀ o ∈ tx.txOut, 0 ≤ o.value ∧ o.value ≤ MaxSatoshi) ∧
      (tx.txIn.map (fun t => t.previousOutPoint)).Nodup) ∧
    (∀ txn, (assembleSweepTx cfg pkScript recs).1 = .ok txn →
      (txn.txIn = [] ∨ (∃ o ∈ txn.txOut, o.value < 0 ∨ MaxSatoshi < o.value) ∨
        ¬ (txn.txIn.map (fun t => t.previousOutPoint)).Nodup) →
      ∃ e, (genSweepTx cfg pkScript recs).1 = .error e) ∧
    ((allOutpoints recs = [] ∨ ¬ (allOutpoints recs).Nodup ∨
        ∃ fee, cfg.estimateFeePerVSize 2 = .ok fee ∧
          wrap64 (sumTotalAmt recs - sumFees fee recs) < 0) →
      ∃ e, (genSweepTx cfg pkScript recs).1 = .error e) := by
  have key : ∀ tx, (genSweepTx cfg pkScript recs).1 = .ok tx →
      (assembleSweepTx cfg pkScript recs).1 = .ok tx ∧
      tx.txIn ≠ [] ∧ (∀ o ∈ tx.txOut, 0 ≤ o.value ∧ o.value ≤ MaxSatoshi) ∧
      (tx.txIn.map (fun t => t.previousOutPoint)).Nodup := by
    intro tx h
    obtain ⟨ha, hs⟩ := genSweepTx_ok cfg pkScript recs tx h
    exact ⟨ha, (CheckTransactionSanity_ok tx).mp hs⟩
  refine ⟨fun tx h => (key tx h).2, ?_, ?_⟩
  · intro txn hasm hbad
    cases hres : (genSweepTx cfg pkScript recs).1 with
    | error e => exact ⟨e, rfl⟩
    | ok tx =>
      exfalso
      obtain ⟨ha, h1, h2, h3⟩ := key tx hres
      rw [hasm] at ha
      cases ha
      rcases hbad with hb | ⟨o, ho, hb⟩ | hb
      · exact h1 hb
      · have := h2 o ho
        omega
      · exact hb h3
  · intro hbad
    cases hres : (genSweepTx cfg pkScript recs).1 with
    | error e => exact ⟨e, rfl⟩
    | ok tx =>
      exfalso
      obtain ⟨ha, h1, h2, h3⟩ := key tx hres
      obtain ⟨fee, hfee, htx, hout⟩ := assembleSweepTx_ok cfg pkScript recs tx ha
      rcases hbad with hb | hb | ⟨fee2, hfee2, hb⟩
      · rw [← hout] at hb
        exact h1 (List.map_eq_nil_iff.mp hb)
      · rw [← hout] at hb
        exact hb h3
      · rw [hfee] at hfee2
        cases hfee2
        have hmem : (⟨wrap64 (sumTotalAmt recs - sumFees fee recs), pkScript⟩ : TxOut) ∈
            tx.txOut := by
          rw [htx]; simp
        have h0 := (h2 _ hmem).1
        simp only at h0
        omega

/-- C10, on the scenario of the specification (a returned transaction) and on
an empty list of records (an error). -/
theorem genSweepTx_sanity_witness :
    (scenarioTx.txIn ≠ [] ∧ (∀ o ∈ scenarioTx.txOut, 0 ≤ o.value ∧ o.value ≤ MaxSatoshi) ∧
      (scenarioTx.txIn.map (fun t => t.previousOutPoint)).Nodup) ∧
    ∃ e, (genSweepTx (staticConfig 2) [1, 2, 3] ([] : List (StrayInput (List Nat)))).1 =
      .error e :=
  ⟨(genSweepTx_sanity (staticConfig 2) [1, 2, 3] scenarioRecords).1 scenarioTx rfl,
   (genSweepTx_sanity (staticConfig 2) [1, 2, 3] []).2.2 (Or.inl rfl)⟩

/-! ## The store: helper lemmas -/

theorem uint64_putUint64 (v : Nat) (h : v < 2 ^ 64) : uint64 (putUint64 v) = v := by
  simp only [uint64, putUint64, List.getD_cons_zero, List.getD_cons_succ]
  omega

theorem putUint64_injective (i j : Nat) (hi : i < 2 ^ 64) (hj : j < 2 ^ 64)
    (h : putUint64 i = putUint64 j) : i = j := by
  rw [← uint64_putUint64 i hi, ← uint64_putUint64 j hj, h]

theorem putUint64_length (v : Nat) : (putUint64 v).length = 8 := rfl

theorem bytesLt_putUint64_gt (i j : Nat) (h : i < j) (hj : j < 2 ^ 64) :
    bytesLt (putUint64 j) (putUint64 i) = false := by
  simp only [putUint64, bytesLt, Bool.or_eq_false_iff, Bool.and_eq_false_iff,
    decide_eq_false_iff_not, Bool.and_eq_false_imp, decide_eq_true_eq]
  omega

theorem bytesLt_irrefl (a : List Nat) : bytesLt a a = false := by
  induction a with
  | nil => rfl
  | cons x xs ih => simp [bytesLt, ih]

theorem bytesLt_total (a : List Nat) : ∀ b : List Nat, a.length = b.length → a ≠ b →
    bytesLt b a = false → bytesLt a b = true := by
  induction a with
  | nil =>
    intro b hl hne _
    cases b with
    | nil => exact absurd rfl hne
    | cons y ys => simp at hl
  | cons x xs ih =>
    intro b hl hne hlt
    cases b with
    | nil => simp at hl
    | cons y ys =>
      simp only [bytesLt, Bool.or_eq_false_iff, decide_eq_false_iff_not,
        Bool.and_eq_false_imp, decide_eq_true_eq] at hlt
      simp only [bytesLt, Bool.or_eq_true, decide_eq_true_eq, Bool.and_eq_true]
      obtain ⟨h1, h2⟩ := hlt
      by_cases hxy : x = y
      · right
        refine ⟨hxy, ih ys (by simpa using hl) ?_ (h2 hxy.symm)⟩
        intro he
        exact hne (by rw [hxy, he])
      · left
        omega

theorem bytesLt_putUint64 (i j : Nat) (hi : i < 2 ^ 64) (hj : j < 2 ^ 64) :
    bytesLt (putUint64 i) (putUint64 j) = decide (i < j) := by
  by_cases h : i < j
  · simp only [h, decide_True]
    apply bytesLt_total _ _ (by rw [putUint64_length, putUint64_length])
    · intro he
      have := putUint64_injective i j hi hj he
      omega
    · exact bytesLt_putUint64_gt i j h hj
  · simp only [h, decide_False]
    by_cases he : i = j
    · rw [he]; exact bytesLt_irrefl _
    · exact bytesLt_putUint64_gt j i (by omega) hi

theorem putEntry_append (k v : List Nat) (es : List (List Nat × Option (List Nat)))
    (h : ∀ p ∈ es, p.1 ≠ k ∧ bytesLt k p.1 = false) :
    putEntry k v es = es ++ [(k, some v)] := by
  induction es with
  | nil => rfl
  | cons p rest ih =>
    obtain ⟨k1, v1⟩ := p
    have h1 := h (k1, v1) (List.mem_cons_self _ _)
    have h2 := ih (fun q hq => h q (List.mem_cons_of_mem _ hq))
    simp only [putEntry, Ne.symm h1.1, if_false, h1.2, Bool.false_eq_true, h2, List.cons_append]

theorem seqEntries_append (vals : List (List Nat)) (n : Nat) (v : List Nat) :
    seqEntries n (vals ++ [v]) =
      seqEntries n vals ++ [(putUint64 (n + vals.length + 1), some v)] := by
  induction vals generalizing n with
  | nil => simp [seqEntries]
  | cons x rest ih =>
    have e : n + 1 + rest.length + 1 = n + (rest.length + 1) + 1 := by omega
    rw [List.cons_append]
    show (putUint64 (n + 1), some x) :: seqEntries (n + 1) (rest ++ [v]) = _
    rw [ih, e]
    rfl

theorem seqEntries_key (vals : List (List Nat)) (n : Nat) :
    ∀ p ∈ seqEntries n vals, ∃ j, n < j ∧ j ≤ n + vals.length ∧ p.1 = putUint64 j := by
  induction vals generalizing n with
  | nil => intro p hp; simp [seqEntries] at hp
  | cons x rest ih =>
    intro p hp
    simp only [seqEntries, List.mem_cons] at hp
    rcases hp with hp | hp
    · exact ⟨n + 1, by omega, by simp, by rw [hp]⟩
    · obtain ⟨j, h1, h2, h3⟩ := ih (n + 1) p hp
      exact ⟨j, by omega, by simp only [List.length_cons]; omega, h3⟩

theorem putEntry_seqEntries (vals : List (List Nat)) (v : List Nat)
    (h : vals.length + 1 < 2 ^ 64) :
    putEntry (putUint64 (vals.length + 1)) v (seqEntries 0 vals) =
      seqEntries 0 (vals ++ [v]) := by
  rw [seqEntries_append, Nat.zero_add]
  apply putEntry_append
  intro p hp
  obtain ⟨j, h1, h2, h3⟩ := seqEntries_key vals 0 p hp
  rw [h3]
  constructor
  · intro he
    have := putUint64_injective j (vals.length + 1) (by omega) h he
    omega
  · exact bytesLt_putUint64_gt _ _ (by omega) h

theorem seqEntries_keys_nodup (vals : List (List Nat)) (n : Nat)
    (h : n + vals.length < 2 ^ 64) : ((seqEntries n vals).map (fun p => p.1)).Nodup := by
  induction vals generalizing n with
  | nil => simp [seqEntries]
  | cons x rest ih =>
    simp only [seqEntries, List.map_cons, List.nodup_cons, List.mem_map, not_exists, not_and]
    simp only [List.length_cons] at h
    refine ⟨?_, ih (n + 1) (by omega)⟩
    intro p hp he
    obtain ⟨j, h1, h2, h3⟩ := seqEntries_key rest (n + 1) p hp
    rw [h3] at he
    have := putUint64_injective j (n + 1) (by omega) (by omega) he
    omega

theorem AddStrayInput_step {SD : Type} (codec : SignDescCodec SD) (db : Store)
    (r : StrayInput SD) (vals : List (List Nat)) (b : List Nat)
    (hdb : createBucketIfNotExists db.strayInputs = ⟨vals.length, seqEntries 0 vals⟩)
    (hlen : vals.length + 1 < 2 ^ 64) (henc : Encode codec r [] = .ok b) :
    AddStrayInput codec db r =
      (.ok (), ⟨some ⟨vals.length + 1, seqEntries 0 (vals ++ [b])⟩, db.payments,
        db.paymentStatuses⟩) := by
  simp only [AddStrayInput, henc, hdb, Bucket.NextSequence, Bucket.Put,
    Nat.mod_eq_of_lt hlen, putEntry_seqEntries vals b hlen]

theorem addStrayInputs_seqEntries {SD : Type} (codec : SignDescCodec SD)
    (rs : List (StrayInput SD)) :
    ∀ (db : Store) (vals : List (List Nat)),
    createBucketIfNotExists db.strayInputs = ⟨vals.length, seqEntries 0 vals⟩ →
    vals.length + rs.length < 2 ^ 64 →
    (∀ r ∈ rs, ∃ b, Encode codec r [] = .ok b) →
    ∃ bs db1, addStrayInputs codec db rs = .ok db1 ∧
      List.Forall₂ (fun r b => Encode codec r [] = .ok b) rs bs ∧
      createBucketIfNotExists db1.strayInputs =
        ⟨vals.length + rs.length, seqEntries 0 (vals ++ bs)⟩ ∧
      (rs ≠ [] → db1.strayInputs ≠ none) ∧
      db1.payments = db.payments ∧ db1.paymentStatuses = db.paymentStatuses := by
  induction rs with
  | nil =>
    intro db vals hdb _ _
    exact ⟨[], db, rfl, List.Forall₂.nil, by simpa using hdb, by simp, rfl, rfl⟩
  | cons r rest ih =>
    intro db vals hdb hlen henc
    obtain ⟨b, hb⟩ := henc r (List.mem_cons_self _ _)
    simp only [List.length_cons] at hlen
    have hstep := AddStrayInput_step codec db r vals b hdb (by omega) hb
    obtain ⟨bs, db1, h1, h2, h3, _, h5, h6⟩ := ih
      ⟨some ⟨vals.length + 1, seqEntries 0 (vals ++ [b])⟩, db.payments, db.paymentStatuses⟩
      (vals ++ [b]) (by simp [createBucketIfNotExists]) (by simp; omega)
      (fun q hq => henc q (List.mem_cons_of_mem _ hq))
    refine ⟨b :: bs, db1, ?_, List.Forall₂.cons hb h2, ?_, ?_, h5, h6⟩
    · simp only [addStrayInputs, hstep, h1]
    · rw [h3]
      simp only [List.length_append, List.length_cons, List.length_nil, List.append_assoc,
        List.singleton_append]
      congr 1
      omega
    · intro _ hnone
      rw [hnone] at h3
      simp only [createBucketIfNotExists, List.length_append, List.length_cons,
        List.length_nil, Bucket.mk.injEq] at h3
      omega

theorem fetchLoop_seqEntries {SD : Type} (codec : SignDescCodec SD)
    (rs : List (StrayInput SD)) (bs : List (List Nat))
    (h : List.Forall₂ (fun r b => Decode codec emptyStrayInput b = .ok r) rs bs) :
    ∀ (n : Nat) (acc : List (StrayInput SD)),
    fetchLoop codec (seqEntries n bs) acc = .ok (acc ++ rs) := by
  induction h with
  | nil => intro n acc; simp [seqEntries, fetchLoop]
  | cons hd _ ih =>
    intro n acc
    simp only [seqEntries, fetchLoop, Option.getD_some, hd, ih, List.append_assoc,
      List.singleton_append]

theorem seqEntries_keys (vals : List (List Nat)) (n : Nat) :
    (seqEntries n vals).map (fun p => p.1) =
      (List.range vals.length).map (fun i => putUint64 (n + i + 1)) := by
  induction vals generalizing n with
  | nil => rfl
  | cons x rest ih =>
    simp only [seqEntries, List.map_cons, ih, List.length_cons, List.range_succ_eq_map,
      List.map_map, Nat.add_zero, List.cons.injEq, true_and]
    apply List.map_congr_left
    intro i _
    simp only [Function.comp]
    congr 1
    omega

theorem forall₂_decode_of_encode {SD : Type} (codec : SignDescCodec SD)
    (rs : List (StrayInput SD)) (bs : List (List Nat))
    (h : List.Forall₂ (fun r b => Encode codec r [] = .ok b) rs bs) :
    (∀ r ∈ rs, WellFormed r) → (∀ r ∈ rs, ∀ i ∈ r.inputs, CodecRoundTrips codec i) →
    List.Forall₂ (fun r b => Decode codec emptyStrayInput b = .ok r) rs bs := by
  induction h with
  | nil => intro _ _; exact List.Forall₂.nil
  | @cons r b rs1 bs1 hd _ ih =>
    intro hwf hc
    obtain ⟨bytes, e1, e2⟩ := Decode_recordLayout codec r (hwf r (List.mem_cons_self _ _))
      (hc r (List.mem_cons_self _ _))
    rw [hd] at e1
    cases e1
    exact List.Forall₂.cons e2 (ih (fun q hq => hwf q (List.mem_cons_of_mem _ hq))
      (fun q hq => hc q (List.mem_cons_of_mem _ hq)))

theorem AddStrayInput_ok_encode {SD : Type} (codec : SignDescCodec SD) (db db1 : Store)
    (r : StrayInput SD) (h : AddStrayInput codec db r = (.ok (), db1)) :
    ∃ b, Encode codec r [] = .ok b := by
  unfold AddStrayInput at h
  split at h
  · simp at h
  · rename_i b hb
    exact ⟨b, hb⟩

theorem addStrayInputs_ok_encode {SD : Type} (codec : SignDescCodec SD)
    (rs : List (StrayInput SD)) :
    ∀ (db db1 : Store), addStrayInputs codec db rs = .ok db1 →
    ∀ r ∈ rs, ∃ b, Encode codec r [] = .ok b := by
  induction rs with
  | nil => intro _ _ _ r hr; simp at hr
  | cons x rest ih =>
    intro db db1 h r hr
    unfold addStrayInputs at h
    split at h
    · cases h
    · rename_i u db2 e1
      rcases List.mem_cons.mp hr with hx | hx
      · rw [hx]
        cases u
        exact AddStrayInput_ok_encode codec db db2 x e1
      · exact ih db2 db1 h r hx

/-! ## The call log: helper lemmas -/

theorem mem_dropLast_or_getLast {α : Type} (l : List α) (x : α) (h : x ∈ l) :
    x ∈ l.dropLast ∨ l.getLast? = some x := by
  induction l with
  | nil => simp at h
  | cons a rest ih =>
    cases rest with
    | nil =>
      simp only [List.mem_singleton] at h
      right; simp [h]
    | cons b rest2 =>
      rcases List.mem_cons.mp h with h1 | h1
      · left; simp [h1]
      · rcases ih h1 with h2 | h2
        · left; simp only [List.dropLast_cons₂, List.mem_cons]; right; exact h2
        · right; simpa using h2

theorem LogShape_of_allOk {SD : Type} {α : Type} (cfg : PoolConfig SD) (res : Except Err α)
    (calls : List (WitnessCall SD)) (h : ∀ c ∈ calls, CallOk cfg c) :
    LogShape cfg res calls := by
  refine ⟨fun c hc => h c (List.mem_of_mem_dropLast hc), ?_, fun _ => h⟩
  intro c e hlast hfail
  obtain ⟨w, hw⟩ := h c (List.mem_of_getLast?_eq_some hlast)
  rw [hw] at hfail
  cases hfail

theorem witnessLoop_log {SD : Type} (cfg : PoolConfig SD) (hc : TxSigHashes)
    (inputs : List (SpendableOutput SD)) :
    ∀ (i : Nat) (txn : MsgTx) (calls : List (WitnessCall SD)),
    (∀ c ∈ calls, CallOk cfg c) →
    LogShape cfg (witnessLoop cfg hc i inputs txn calls).1
      (witnessLoop cfg hc i inputs txn calls).2 := by
  induction inputs with
  | nil =>
    intro i txn calls hok
    exact LogShape_of_allOk cfg _ _ hok
  | cons input rest ih =>
    intro i txn calls hok
    unfold witnessLoop
    cases hbw : cfg.buildWitness input txn hc i with
    | error e =>
      have hadd : addWitness cfg txn hc i input = .error e := by
        simp only [addWitness, hbw]
      simp only [hadd]
      refine ⟨?_, ?_, ?_⟩
      · intro c hc1
        rw [List.dropLast_concat] at hc1
        exact hok c hc1
      · intro c e2 hlast hfail
        rw [List.getLast?_concat] at hlast
        cases hlast
        simp only at hfail
        rw [hbw] at hfail
        cases hfail
        rfl
      · rintro ⟨a, ha⟩
        cases ha
    | ok w =>
      have hcall : CallOk cfg (⟨input, txn, hc, i⟩ : WitnessCall SD) := ⟨w, hbw⟩
      have hok2 : ∀ c ∈ calls ++ [(⟨input, txn, hc, i⟩ : WitnessCall SD)], CallOk cfg c := by
        intro c hc1
        rcases List.mem_append.mp hc1 with h1 | h1
        · exact hok c h1
        · rw [List.mem_singleton.mp h1]; exact hcall
      cases hadd : addWitness cfg txn hc i input with
      | error e =>
        simp only []
        exact LogShape_of_allOk cfg _ _ hok2
      | ok txn1 =>
        simp only []
        exact ih (i + 1) txn1 _ hok2


theorem LogShape_error {SD : Type} {α β : Type} (cfg : PoolConfig SD) (e : Err)
    (calls : List (WitnessCall SD)) (h : LogShape cfg (.error e : Except Err α) calls) :
    LogShape cfg (.error e : Except Err β) calls := by
  refine ⟨h.1, ?_, ?_⟩
  · intro c e2 hlast hfail
    have := h.2.1 c e2 hlast hfail
    cases this
    rfl
  · rintro ⟨a, ha⟩
    cases ha

theorem recordsLoop_log {SD : Type} (cfg : PoolConfig SD) (fee : Int)
    (recs : List (StrayInput SD)) :
    ∀ (txn : MsgTx) (total : Int) (calls : List (WitnessCall SD)),
    (∀ c ∈ calls, CallOk cfg c) →
    LogShape cfg (recordsLoop cfg fee recs txn total calls).1
      (recordsLoop cfg fee recs txn total calls).2 := by
  induction recs with
  | nil =>
    intro txn total calls hok
    exact LogShape_of_allOk cfg _ _ hok
  | cons s rest ih =>
    intro txn total calls hok
    have hw := witnessLoop_log cfg (NewTxSigHashes (addTxIns txn s.inputs)) s.inputs 0
      (addTxIns txn s.inputs) calls hok
    unfold recordsLoop
    simp only []
    split
    · rename_i e calls1 e1
      rw [e1] at hw
      exact LogShape_error cfg e calls1 hw
    · rename_i txn2 calls1 e1
      rw [e1] at hw
      exact ih txn2 _ calls1 (hw.2.2 ⟨txn2, rfl⟩)

theorem genSweepTx_log {SD : Type} (cfg : PoolConfig SD) (pkScript : List Nat)
    (recs : List (StrayInput SD)) :
    LogShape cfg (genSweepTx cfg pkScript recs).1 (genSweepTx cfg pkScript recs).2 := by
  have hasm : LogShape cfg (assembleSweepTx cfg pkScript recs).1
      (assembleSweepTx cfg pkScript recs).2 := by
    unfold assembleSweepTx
    split
    · exact LogShape_of_allOk cfg _ _ (by simp)
    · rename_i fee _
      have hr := recordsLoop_log cfg fee recs (NewMsgTx 2) 0 [] (by simp)
      split
      · rename_i e calls e1
        rw [e1] at hr
        exact LogShape_error cfg e calls hr
      · rename_i txn total calls e1
        rw [e1] at hr
        exact LogShape_of_allOk cfg _ _ (hr.2.2 ⟨_, rfl⟩)
  unfold genSweepTx
  split
  · rename_i e calls e1
    rw [e1] at hasm
    exact hasm
  · rename_i txn calls e1
    rw [e1] at hasm
    split
    · exact LogShape_of_allOk cfg _ _ (hasm.2.2 ⟨_, rfl⟩)
    · exact LogShape_of_allOk cfg _ _ (hasm.2.2 ⟨_, rfl⟩)

/-! ## The facade and the migration: helper lemmas -/

theorem publishCount_append {SD : Type} (l1 l2 : List (Event SD)) :
    publishCount (l1 ++ l2) = publishCount l1 + publishCount l2 := by
  induction l1 with
  | nil => simp [publishCount]
  | cons x rest ih =>
    cases x <;> simp only [List.cons_append, publishCount, List.append_eq, ih]
    omega

theorem publishCount_buildWitness {SD : Type} (calls : List (WitnessCall SD)) :
    publishCount (calls.map Event.buildWitness) = 0 := by
  induction calls with
  | nil => rfl
  | cons c rest ih => simp only [List.map_cons, publishCount, ih]

theorem GenSweepTx_publishCount {SD : Type} (cfg : PoolConfig SD) (codec : SignDescCodec SD)
    (db : Store) : publishCount (GenSweepTx cfg codec db).events = 0 := by
  unfold GenSweepTx
  split
  · rfl
  · split
    · rfl
    · simp only [publishCount_append, publishCount_buildWitness]
      rfl

theorem GenSweepTx_store {SD : Type} (cfg : PoolConfig SD) (codec : SignDescCodec SD)
    (db : Store) : (GenSweepTx cfg codec db).store = db := by
  unfold GenSweepTx
  split
  · rfl
  · split <;> rfl

theorem GenSweepTx_ok {SD : Type} (cfg : PoolConfig SD) (codec : SignDescCodec SD)
    (db : Store) (tx : MsgTx) (h : (GenSweepTx cfg codec db).result = .ok tx) :
    ∃ recs, FetchAllStrayInputs codec db = .ok recs ∧
      tx.txIn.map (fun t => t.previousOutPoint) = allOutpoints recs := by
  unfold GenSweepTx at h
  split at h
  · cases h
  · rename_i pkScript _
    split at h
    · cases h
    · rename_i recs hrecs
      simp only at h
      obtain ⟨ha, _⟩ := genSweepTx_ok cfg pkScript recs tx h
      obtain ⟨_, _, _, hout⟩ := assembleSweepTx_ok cfg pkScript recs tx ha
      exact ⟨recs, hrecs, hout⟩

theorem find?_putEntry_self (k v : List Nat) (es : List (List Nat × Option (List Nat))) :
    (putEntry k v es).find? (fun e => decide (e.1 = k)) = some (k, some v) := by
  induction es with
  | nil => simp [putEntry]
  | cons p rest ih =>
    obtain ⟨k1, v1⟩ := p
    unfold putEntry
    split
    · simp
    · rename_i hne
      split
      · simp
      · rw [List.find?_cons_of_neg _ (by simpa using Ne.symm hne)]
        exact ih

theorem find?_putEntry_other (k v k2 : List Nat) (es : List (List Nat × Option (List Nat)))
    (h : k2 ≠ k) :
    (putEntry k v es).find? (fun e => decide (e.1 = k2)) =
      es.find? (fun e => decide (e.1 = k2)) := by
  induction es with
  | nil => simp [putEntry, Ne.symm h]
  | cons p rest ih =>
    obtain ⟨k1, v1⟩ := p
    unfold putEntry
    split
    · rename_i heq
      rw [List.find?_cons_of_neg _ (by simpa using Ne.symm h),
        List.find?_cons_of_neg _ (by rw [← heq]; simpa using Ne.symm h)]
    · split
      · rw [List.find?_cons_of_neg _ (by simpa using Ne.symm h)]
      · by_cases hk : k1 = k2
        · simp [hk]
        · rw [List.find?_cons_of_neg _ (by simpa using hk),
            List.find?_cons_of_neg _ (by simpa using hk)]
          exact ih

theorem Get_Put (b : Bucket) (k v k2 : List Nat) :
    (b.Put k v).Get k2 = if k2 = k then some v else b.Get k2 := by
  by_cases h : k2 = k
  · subst h
    simp only [Bucket.Get, Bucket.Put, find?_putEntry_self, if_true]
  · simp only [Bucket.Get, Bucket.Put, find?_putEntry_other k v k2 b.entries h, h, if_false]

theorem migrateLoop_ok (env : MigrationEnv) (entries : List (List Nat × Option (List Nat))) :
    ∀ (st st1 : Bucket), migrateLoop env entries st = (.ok (), st1) →
    (∀ h, st.Get h = some env.statusCompleted → st1.Get h = some env.statusCompleted) ∧
    ∀ k v, (k, some v) ∈ entries → ∃ p, env.deserializeOutgoingPayment v = .ok p ∧
      st1.Get (env.sha256 p.paymentPreimage) = some env.statusCompleted := by
  induction entries with
  | nil =>
    intro st st1 h
    simp only [migrateLoop, Prod.mk.injEq, true_and] at h
    subst h
    exact ⟨fun _ hh => hh, fun k v hm => by simp at hm⟩
  | cons p rest ih =>
    intro st st1 h
    obtain ⟨k1, v1⟩ := p
    cases v1 with
    | none =>
      simp only [migrateLoop] at h
      obtain ⟨h1, h2⟩ := ih st st1 h
      refine ⟨h1, ?_⟩
      intro k v hm
      rcases List.mem_cons.mp hm with hm1 | hm1
      · cases hm1
      · exact h2 k v hm1
    | some v1 =>
      simp only [migrateLoop] at h
      split at h
      · simp at h
      · rename_i payment hpay
        obtain ⟨h1, h2⟩ := ih _ st1 h
        refine ⟨?_, ?_⟩
        · intro hh hget
          apply h1
          rw [Get_Put]
          split
          · rfl
          · exact hget
        · intro k v hm
          rcases List.mem_cons.mp hm with hm1 | hm1
          · cases hm1
            refine ⟨payment, hpay, ?_⟩
            apply h1
            rw [Get_Put]
            simp
          · exact h2 k v hm1

theorem migrateLoop_error (env : MigrationEnv)
    (entries : List (List Nat × Option (List Nat))) :
    ∀ (st : Bucket),
    (∃ k v e, (k, some v) ∈ entries ∧ env.deserializeOutgoingPayment v = .error e) →
    ∃ k v e, (k, some v) ∈ entries ∧ env.deserializeOutgoingPayment v = .error e ∧
      (migrateLoop env entries st).1 = .error e := by
  induction entries with
  | nil => rintro st ⟨k, v, e, hm, _⟩; simp at hm
  | cons p rest ih =>
    rintro st ⟨k, v, e, hm, he⟩
    obtain ⟨k1, v1⟩ := p
    have hrest : (k, some v) ∈ rest → ∀ st2, ∃ k v e, (k, some v) ∈ (k1, v1) :: rest ∧
        env.deserializeOutgoingPayment v = .error e ∧ (migrateLoop env rest st2).1 = .error e := by
      intro hm1 st2
      obtain ⟨k2, v2, e2, a1, a2, a3⟩ := ih st2 ⟨k, v, e, hm1, he⟩
      exact ⟨k2, v2, e2, List.mem_cons_of_mem _ a1, a2, a3⟩
    cases v1 with
    | none =>
      simp only [migrateLoop]
      rcases List.mem_cons.mp hm with hm1 | hm1
      · cases hm1
      · exact hrest hm1 st
    | some v1 =>
      simp only [migrateLoop]
      cases hpay : env.deserializeOutgoingPayment v1 with
      | error e1 => exact ⟨k1, v1, e1, List.mem_cons_self _ _, hpay, rfl⟩
      | ok payment =>
        simp only []
        rcases List.mem_cons.mp hm with hm1 | hm1
        · cases hm1
          rw [hpay] at he
          cases he
        · exact hrest hm1 _

theorem migrateLoop_filter (env : MigrationEnv)
    (entries : List (List Nat × Option (List Nat))) :
    ∀ (st : Bucket), migrateLoop env entries st =
      migrateLoop env (entries.filter (fun e => e.2.isSome)) st := by
  induction entries with
  | nil => intro st; rfl
  | cons p rest ih =>
    intro st
    obtain ⟨k1, v1⟩ := p
    cases v1 with
    | none => simp only [migrateLoop, List.filter_cons, Option.isSome_none, Bool.false_eq_true,
        if_false, ih]
    | some v1 =>
      simp only [migrateLoop, List.filter_cons, Option.isSome_some, if_true]
      split
      · rfl
      · exact ih _

theorem fetchLoop_error {SD : Type} (codec : SignDescCodec SD)
    (entries : List (List Nat × Option (List Nat))) :
    ∀ (acc : List (StrayInput SD)),
    (∃ p ∈ entries, ∃ e, Decode codec emptyStrayInput (p.2.getD []) = .error e) →
    ∃ p ∈ entries, ∃ e, Decode codec emptyStrayInput (p.2.getD []) = .error e ∧
      fetchLoop codec entries acc = .error e := by
  induction entries with
  | nil => rintro acc ⟨p, hp, _⟩; simp at hp
  | cons q rest ih =>
    rintro acc ⟨p, hp, e, he⟩
    obtain ⟨k1, v1⟩ := q
    cases hq : Decode codec emptyStrayInput (v1.getD []) with
    | error e1 =>
      exact ⟨(k1, v1), List.mem_cons_self _ _, e1, hq, by simp only [fetchLoop, hq]⟩
    | ok input =>
      rcases List.mem_cons.mp hp with hp1 | hp1
      · subst hp1
        simp only at he
        rw [hq] at he
        cases he
      · obtain ⟨p2, hp2, e2, a1, a2⟩ := ih (acc ++ [input]) ⟨p, hp1, e, he⟩
        exact ⟨p2, List.mem_cons_of_mem _ hp2, e2, a1, by simp only [fetchLoop, hq, a2]⟩

theorem fetchLoop_ok {SD : Type} (codec : SignDescCodec SD)
    (entries : List (List Nat × Option (List Nat))) :
    ∀ (acc : List (StrayInput SD)),
    (∀ p ∈ entries, ∃ s, Decode codec emptyStrayInput (p.2.getD []) = .ok s) →
    ∃ rs, fetchLoop codec entries acc = .ok (acc ++ rs) ∧
      List.Forall₂ (fun p s => Decode codec emptyStrayInput (p.2.getD []) = .ok s)
        entries rs := by
  induction entries with
  | nil => intro acc _; exact ⟨[], by simp [fetchLoop], List.Forall₂.nil⟩
  | cons q rest ih =>
    intro acc h
    obtain ⟨k1, v1⟩ := q
    obtain ⟨s, hs⟩ := h (k1, v1) (List.mem_cons_self _ _)
    obtain ⟨rs, h1, h2⟩ := ih (acc ++ [s]) (fun p hp => h p (List.mem_cons_of_mem _ hp))
    refine ⟨s :: rs, ?_, List.Forall₂.cons hs h2⟩
    simp only at hs
    simp only [fetchLoop, hs, h1, List.append_assoc, List.singleton_append]

/-! ## The call log, the store, the facade, the gate and the migration: claims -/

/-- C11: if a BuildWitness call that genSweepTx makes returns an error,
genSweepTx returns that same error (and so no transaction), and that call is
the last one made: no later witness is requested. -/
theorem genSweepTx_witness_failure {SD : Type} (cfg : PoolConfig SD) (pkScript : List Nat)
    (recs : List (StrayInput SD)) (c : WitnessCall SD) (e : Err)
    (hc : c ∈ (genSweepTx cfg pkScript recs).2)
    (hfail : cfg.buildWitness c.so c.txn c.hashCache c.idx = .error e) :
    (genSweepTx cfg pkScript recs).1 = .error e ∧
    (genSweepTx cfg pkScript recs).2.getLast? = some c := by
  obtain ⟨h1, h2, _⟩ := genSweepTx_log cfg pkScript recs
  rcases mem_dropLast_or_getLast _ c hc with h | h
  · obtain ⟨w, hw⟩ := h1 c h
    rw [hw] at hfail
    cases hfail
  · exact ⟨h2 c e h hfail, h⟩

/-- C11, on the scenario with a witness builder that fails on the second
input: the error is returned and the third input is never asked for. -/
theorem genSweepTx_witness_failure_witness :
    (genSweepTx (failingConfig 2) [1, 2, 3] scenarioRecords).1 = .error (.other 9) ∧
    (genSweepTx (failingConfig 2) [1, 2, 3] scenarioRecords).2.getLast? = some failingCall :=
  genSweepTx_witness_failure (failingConfig 2) [1, 2, 3] scenarioRecords failingCall
    (.other 9) (by decide) rfl

/-- C12 (the code stores nothing): AddInputs returns nil and leaves the
store as it was, whatever the virtual size and the outputs; after
AddInputs(10, outputs) on a new store FetchAllStrayInputs still returns
ErrNoStrayInputsCreated. -/
theorem AddInputs_stores_nothing {SD : Type} (db : Store) (txVSize : Int)
    (inputs : List (SpendableOutput SD)) :
    AddInputs db txVSize inputs = (.ok (), db) ∧
    FetchAllStrayInputs varBytesCodec (AddInputs emptyStore 10 encodeSample.inputs).2 =
      .error .noStrayInputsCreated :=
  ⟨rfl, rfl⟩

/-- C13 (amended): starting from a store without the stray-input bucket, the
calls AddStrayInput(r_1), ..., AddStrayInput(r_k) with well-formed records whose
descriptors the codec round-trips (k at least 1 and below 2^64) all succeed,
and FetchAllStrayInputs then returns exactly r_1, ..., r_k in this order; the
keys of the bucket are the 8-byte big-endian sequence numbers 1, ..., k, and
the byte-wise order of such keys is the numeric order. -/
theorem FetchAllStrayInputs_insertion_order {SD : Type} (codec : SignDescCodec SD)
    (db0 : Store) (rs : List (StrayInput SD))
    (hnone : db0.strayInputs = none) (hne : rs ≠ []) (hk : rs.length < 2 ^ 64)
    (hwf : ∀ r ∈ rs, WellFormed r)
    (hc : ∀ r ∈ rs, ∀ i ∈ r.inputs, CodecRoundTrips codec i) :
    ∃ db b, addStrayInputs codec db0 rs = .ok db ∧
      FetchAllStrayInputs codec db = .ok rs ∧
      db.strayInputs = some b ∧
      b.entries.map (fun p => p.1) = (List.range rs.length).map (fun i => putUint64 (i + 1)) ∧
      ∀ i j, i < 2 ^ 64 → j < 2 ^ 64 →
        bytesLt (putUint64 i) (putUint64 j) = decide (i < j) := by
  have henc : ∀ r ∈ rs, ∃ b, Encode codec r [] = .ok b := by
    intro r hr
    obtain ⟨b, hb, _⟩ := Decode_recordLayout codec r (hwf r hr) (hc r hr)
    exact ⟨b, hb⟩
  obtain ⟨bs, db, h1, h2, h3, h4, _, _⟩ := addStrayInputs_seqEntries codec rs db0 []
    (by rw [hnone]; rfl) (by simpa using hk) henc
  have hdec := forall₂_decode_of_encode codec rs bs h2 hwf hc
  have hlen : rs.length = bs.length := h2.length_eq
  cases hb : db.strayInputs with
  | none => exact absurd hb (h4 hne)
  | some b =>
    rw [hb] at h3
    simp only [createBucketIfNotExists, List.nil_append, List.length_nil, Nat.zero_add] at h3
    refine ⟨db, b, h1, ?_, hb, ?_, fun i j hi hj => bytesLt_putUint64 i j hi hj⟩
    · simp only [FetchAllStrayInputs, hb, h3]
      simpa using fetchLoop_seqEntries codec rs bs hdec 0 []
    · rw [h3]
      simp only [seqEntries_keys, Nat.zero_add, hlen]

/-- C13, on two records. -/
theorem FetchAllStrayInputs_insertion_order_witness :
    ∃ db b, addStrayInputs varBytesCodec emptyStore [encodeSample, sampleTwo] = .ok db ∧
      FetchAllStrayInputs varBytesCodec db = .ok [encodeSample, sampleTwo] ∧
      db.strayInputs = some b ∧
      b.entries.map (fun p => p.1) = (List.range 2).map (fun i => putUint64 (i + 1)) ∧
      ∀ i j, i < 2 ^ 64 → j < 2 ^ 64 →
        bytesLt (putUint64 i) (putUint64 j) = decide (i < j) :=
  FetchAllStrayInputs_insertion_order varBytesCodec emptyStore [encodeSample, sampleTwo] rfl
    (by decide) (by decide) (by unfold WellFormed WellFormedOutput; decide)
    (fun _ _ i _ => varBytesCodec_roundTrips i)

/-- C13 as stated fails for k = 0: with no append the bucket does not exist
and FetchAllStrayInputs does not succeed with zero records, it returns
ErrNoStrayInputsCreated. -/
theorem FetchAllStrayInputs_insertion_order_counterexample :
    addStrayInputs varBytesCodec emptyStore [] = .ok emptyStore ∧
    FetchAllStrayInputs varBytesCodec emptyStore = .error .noStrayInputsCreated ∧
    FetchAllStrayInputs varBytesCodec emptyStore ≠ .ok [] :=
  ⟨rfl, rfl, by intro h; cases h⟩

/-- C14: in a store reached from one without the stray-input bucket by the
successful appends of rs (fewer than 2^64 - 1 of them), a successful
AddStrayInput stores exactly one new entry after the existing ones: its key is
the 8-byte big-endian next sequence number (the number of appends so far plus
one), its value the bytes of Encode; the earlier entries and the other buckets
are unchanged, the key is none of the earlier keys and all keys are distinct. -/
theorem AddStrayInput_frame {SD : Type} (codec : SignDescCodec SD)
    (db0 db db1 : Store) (rs : List (StrayInput SD)) (r : StrayInput SD)
    (hnone : db0.strayInputs = none) (hk : rs.length + 1 < 2 ^ 64)
    (hadd : addStrayInputs codec db0 rs = .ok db)
    (hr : AddStrayInput codec db r = (.ok (), db1)) :
    ∃ bytes b1, Encode codec r [] = .ok bytes ∧ db1.strayInputs = some b1 ∧
      b1.sequence = rs.length + 1 ∧
      b1.entries = (createBucketIfNotExists db.strayInputs).entries ++
        [(putUint64 (rs.length + 1), some bytes)] ∧
      (∀ e ∈ (createBucketIfNotExists db.strayInputs).entries,
        e.1 ≠ putUint64 (rs.length + 1)) ∧
      (b1.entries.map (fun p => p.1)).Nodup ∧
      db1.payments = db.payments ∧ db1.paymentStatuses = db.paymentStatuses := by
  obtain ⟨bytes, hbytes⟩ := AddStrayInput_ok_encode codec db db1 r hr
  obtain ⟨bs, db2, h1, h2, h3, _, _, _⟩ := addStrayInputs_seqEntries codec rs db0 []
    (by rw [hnone]; rfl) (by simp; omega) (addStrayInputs_ok_encode codec rs db0 db hadd)
  rw [hadd] at h1
  cases h1
  have hlen : rs.length = bs.length := h2.length_eq
  simp only [List.nil_append, List.length_nil, Nat.zero_add] at h3
  rw [hlen] at h3 hk
  have hstep := AddStrayInput_step codec db r bs bytes h3 hk hbytes
  rw [hr] at hstep
  simp only [Prod.mk.injEq, true_and] at hstep
  subst hstep
  refine ⟨bytes, _, hbytes, rfl, by rw [hlen], ?_, ?_, ?_, rfl, rfl⟩
  · rw [h3, hlen]
    simpa using seqEntries_append bs 0 bytes
  · intro e he
    rw [h3] at he
    obtain ⟨j, _, hj2, hj3⟩ := seqEntries_key bs 0 e he
    rw [hj3, hlen]
    intro hcontra
    have := putUint64_injective j (bs.length + 1) (by omega) hk hcontra
    omega
  · exact seqEntries_keys_nodup (bs ++ [bytes]) 0 (by simp; omega)

/-- C14, on the second append to a new store. -/
theorem AddStrayInput_frame_witness :
    ∃ bytes b1, Encode varBytesCodec sampleTwo [] = .ok bytes ∧
      (AddStrayInput varBytesCodec (AddStrayInput varBytesCodec emptyStore encodeSample).2
        sampleTwo).2.strayInputs = some b1 ∧
      b1.sequence = 2 ∧
      b1.entries = (createBucketIfNotExists
        (AddStrayInput varBytesCodec emptyStore encodeSample).2.strayInputs).entries ++
        [(putUint64 2, some bytes)] ∧
      (∀ e ∈ (createBucketIfNotExists
        (AddStrayInput varBytesCodec emptyStore encodeSample).2.strayInputs).entries,
        e.1 ≠ putUint64 2) ∧
      (b1.entries.map (fun p => p.1)).Nodup ∧
      (AddStrayInput varBytesCodec (AddStrayInput varBytesCodec emptyStore encodeSample).2
        sampleTwo).2.payments = none ∧
      (AddStrayInput varBytesCodec (AddStrayInput varBytesCodec emptyStore encodeSample).2
        sampleTwo).2.paymentStatuses = none :=
  AddStrayInput_frame varBytesCodec emptyStore
    (AddStrayInput varBytesCodec emptyStore encodeSample).2
    (AddStrayInput varBytesCodec (AddStrayInput varBytesCodec emptyStore encodeSample).2
      sampleTwo).2
    [encodeSample] sampleTwo rfl (by decide) rfl rfl

/-- C15 (amended): when the stray-input bucket has not been created,
FetchAllStrayInputs returns ErrNoStrayInputsCreated; and GenSweepTx, once
GenSweepScript has returned a script, returns that same error, leaves the store
as it was, and has called neither the fee estimator nor the signer. -/
theorem GenSweepTx_empty_pool {SD : Type} (cfg : PoolConfig SD) (codec : SignDescCodec SD)
    (db : Store) (pkScript : List Nat) (hnone : db.strayInputs = none)
    (hscript : cfg.genSweepScript = .ok pkScript) :
    FetchAllStrayInputs codec db = .error .noStrayInputsCreated ∧
    (GenSweepTx cfg codec db).result = .error .noStrayInputsCreated ∧
    (GenSweepTx cfg codec db).store = db ∧
    (GenSweepTx cfg codec db).events = [.genSweepScript] := by
  have hf : FetchAllStrayInputs codec db = .error .noStrayInputsCreated := by
    simp only [FetchAllStrayInputs, hnone]
  refine ⟨hf, ?_, ?_, ?_⟩ <;> simp only [GenSweepTx, hscript, hf]

/-- C15, on a new store. -/
theorem GenSweepTx_empty_pool_witness :
    FetchAllStrayInputs varBytesCodec emptyStore = .error .noStrayInputsCreated ∧
    (GenSweepTx (staticConfig 2) varBytesCodec emptyStore).result =
      .error .noStrayInputsCreated ∧
    (GenSweepTx (staticConfig 2) varBytesCodec emptyStore).store = emptyStore ∧
    (GenSweepTx (staticConfig 2) varBytesCodec emptyStore).events = [.genSweepScript] :=
  GenSweepTx_empty_pool (staticConfig 2) varBytesCodec emptyStore [1, 2, 3] rfl rfl

/-- C15 as stated fails: on a new store, when GenSweepScript fails GenSweepTx
returns the error of GenSweepScript, not ErrNoStrayInputsCreated. -/
theorem GenSweepTx_empty_pool_counterexample :
    emptyStore.strayInputs = none ∧
    (GenSweepTx (noScriptConfig 2) varBytesCodec emptyStore).result = .error (.other 7) ∧
    Err.other 7 ≠ Err.noStrayInputsCreated :=
  ⟨rfl, rfl, by decide⟩

/-- C16: if GenSweepTx fails, Sweep returns that same error and the
broadcaster is not called; if GenSweepTx returns a transaction, Sweep calls the
broadcaster exactly once, after everything else and with that transaction, and
returns the result of the broadcaster. -/
theorem Sweep_broadcast {SD : Type} (cfg : PoolConfig SD) (codec : SignDescCodec SD)
    (db : Store) :
    (∀ e, (GenSweepTx cfg codec db).result = .error e →
      (Sweep cfg codec db).result = .error e ∧
      (Sweep cfg codec db).events = (GenSweepTx cfg codec db).events ∧
      publishCount (Sweep cfg codec db).events = 0) ∧
    (∀ tx, (GenSweepTx cfg codec db).result = .ok tx →
      (Sweep cfg codec db).result = cfg.publishTransaction tx ∧
      (Sweep cfg codec db).events =
        (GenSweepTx cfg codec db).events ++ [.publishTransaction tx] ∧
      publishCount (Sweep cfg codec db).events = 1) := by
  constructor
  · intro e h
    simp only [Sweep, h, GenSweepTx_publishCount, and_self]
  · intro tx h
    simp only [Sweep, h, publishCount_append, GenSweepTx_publishCount, publishCount,
      true_and]

/-- C17: GenSweepTx and Sweep leave the store as it was, whatever their
result; so a second GenSweepTx after a Sweep, even with collaborators that
answer differently, reads the same records, and two transactions built this
way spend the same outpoints. -/
theorem Sweep_keeps_records {SD : Type} (cfg cfg2 : PoolConfig SD) (codec : SignDescCodec SD)
    (db : Store) :
    (GenSweepTx cfg codec db).store = db ∧
    (Sweep cfg codec db).store = db ∧
    FetchAllStrayInputs codec (Sweep cfg codec db).store = FetchAllStrayInputs codec db ∧
    (∀ tx1 tx2, (GenSweepTx cfg codec db).result = .ok tx1 →
      (GenSweepTx cfg2 codec (Sweep cfg codec db).store).result = .ok tx2 →
      tx1.txIn.map (fun t => t.previousOutPoint) =
        tx2.txIn.map (fun t => t.previousOutPoint)) := by
  have hs : (Sweep cfg codec db).store = db := by
    unfold Sweep
    split <;> exact GenSweepTx_store cfg codec db
  refine ⟨GenSweepTx_store cfg codec db, hs, by rw [hs], ?_⟩
  intro tx1 tx2 h1 h2
  rw [hs] at h2
  obtain ⟨recs1, hr1, ho1⟩ := GenSweepTx_ok cfg codec db tx1 h1
  obtain ⟨recs2, hr2, ho2⟩ := GenSweepTx_ok cfg2 codec db tx2 h2
  rw [hr1] at hr2
  cases hr2
  rw [ho1, ho2]

/-- C18: the gate calls AddSpendableOutput exactly once, with the output, when
the amount of the output is at most feeRate times its standalone virtual size,
and not at all when the amount is above; with a cost of 40000 (250 per
virtual byte, 160 virtual bytes) an output of 50000 is not pooled and an output
of 100 is. -/
theorem CutStrayInput_gate {SD : Type} (standaloneVSize : SpendableOutput SD → Int)
    (pool : List (SpendableOutput SD)) (feeRate : Int) (output : SpendableOutput SD) :
    (output.amt ≤ feeRate * standaloneVSize output →
      CutStrayInput standaloneVSize pool feeRate output = pool ++ [output]) ∧
    (feeRate * standaloneVSize output < output.amt →
      CutStrayInput standaloneVSize pool feeRate output = pool) ∧
    (CutStrayInput (fun _ => 160) [] 250 (⟨50000, ⟨testHash, 0⟩, 1, []⟩ :
      SpendableOutput (List Nat))).length = 0 ∧
    (CutStrayInput (fun _ => 160) [] 250 (⟨100, ⟨testHash, 0⟩, 1, []⟩ :
      SpendableOutput (List Nat))).length = 1 := by
  refine ⟨?_, ?_, by decide, by decide⟩
  · intro h
    simp only [CutStrayInput, h, if_true]
  · intro h
    simp only [CutStrayInput, not_le.mpr h, if_false]

/-- C19: without a payments bucket the migration returns ErrNoPaymentsCreated
and leaves the transaction as it was (no status bucket is created).  With a
payments bucket, the payments and stray-input buckets are left unchanged;
nested buckets among the entries are skipped; when the migration succeeds,
every entry with a value deserializes and the status bucket maps the hash of
its preimage to the Completed status; and when a payment fails to
deserialize, the migration returns the error of such a payment. -/
theorem paymentStatusesMigration_spec (env : MigrationEnv) (tx : Store) :
    (tx.payments = none →
      paymentStatusesMigration env tx = (.error .noPaymentsCreated, tx)) ∧
    (∀ bucket, tx.payments = some bucket →
      (paymentStatusesMigration env tx).2.payments = tx.payments ∧
      (paymentStatusesMigration env tx).2.strayInputs = tx.strayInputs ∧
      (paymentStatusesMigration env tx).1 =
        (migrateLoop env (bucket.entries.filter (fun e => e.2.isSome))
          (createBucketIfNotExists tx.paymentStatuses)).1 ∧
      ((paymentStatusesMigration env tx).1 = .ok () →
        ∃ st, (paymentStatusesMigration env tx).2.paymentStatuses = some st ∧
          ∀ k v, (k, some v) ∈ bucket.entries →
            ∃ p, env.deserializeOutgoingPayment v = .ok p ∧
              st.Get (env.sha256 p.paymentPreimage) = some env.statusCompleted) ∧
      ((∃ k v e, (k, some v) ∈ bucket.entries ∧
          env.deserializeOutgoingPayment v = .error e) →
        ∃ k v e, (k, some v) ∈ bucket.entries ∧
          env.deserializeOutgoingPayment v = .error e ∧
          (paymentStatusesMigration env tx).1 = .error e)) := by
  constructor
  · intro h
    simp only [paymentStatusesMigration, h]
  · intro bucket hb
    have hdef : paymentStatusesMigration env tx =
        ((migrateLoop env bucket.entries (createBucketIfNotExists tx.paymentStatuses)).1,
          ⟨tx.strayInputs, tx.payments,
            some (migrateLoop env bucket.entries
              (createBucketIfNotExists tx.paymentStatuses)).2⟩) := by
      simp only [paymentStatusesMigration, hb]
    rw [hdef]
    refine ⟨rfl, rfl, by rw [← migrateLoop_filter], ?_, ?_⟩
    · intro hok
      refine ⟨_, rfl, ?_⟩
      have hpair : migrateLoop env bucket.entries (createBucketIfNotExists tx.paymentStatuses) =
          (.ok (), (migrateLoop env bucket.entries
            (createBucketIfNotExists tx.paymentStatuses)).2) := by
        simp only at hok
        rw [← hok]
      exact (migrateLoop_ok env bucket.entries _ _ hpair).2
    · intro hbad
      exact migrateLoop_error env bucket.entries _ hbad

/-- C19, on a payments bucket with two payments and a nested bucket: the
migration succeeds and the status bucket maps both hashes to Completed. -/
theorem paymentStatusesMigration_spec_witness :
    (paymentStatusesMigration sampleMigrationEnv sampleMigrationTx).1 = .ok () ∧
    ∃ st, (paymentStatusesMigration sampleMigrationEnv sampleMigrationTx).2.paymentStatuses =
        some st ∧
      ∀ k v, (k, some v) ∈ [([1], some [10, 20]), ([2], none), ([3], some [1, 1, 1])] →
        ∃ p, sampleMigrationEnv.deserializeOutgoingPayment v = .ok p ∧
          st.Get (sampleMigrationEnv.sha256 p.paymentPreimage) =
            some sampleMigrationEnv.statusCompleted :=
  ⟨rfl, ((paymentStatusesMigration_spec sampleMigrationEnv sampleMigrationTx).2
    ⟨0, [([1], some [10, 20]), ([2], none), ([3], some [1, 1, 1])]⟩ rfl).2.2.2.1 rfl⟩

/-- C20: when the stray-input bucket exists and some stored value makes
Decode return an error, FetchAllStrayInputs returns the Decode error of such a
value and no records; when every stored value decodes, it returns without
error one record per stored entry, the decoded values in key order. -/
theorem FetchAllStrayInputs_fail_fast {SD : Type} (codec : SignDescCodec SD) (db : Store)
    (bucket : Bucket) (hb : db.strayInputs = some bucket) :
    ((∃ p ∈ bucket.entries, ∃ e, Decode codec emptyStrayInput (p.2.getD []) = .error e) →
      ∃ p ∈ bucket.entries, ∃ e, Decode codec emptyStrayInput (p.2.getD []) = .error e ∧
        FetchAllStrayInputs codec db = .error e) ∧
    ((∀ p ∈ bucket.entries, ∃ s, Decode codec emptyStrayInput (p.2.getD []) = .ok s) →
      ∃ rs, FetchAllStrayInputs codec db = .ok rs ∧ rs.length = bucket.entries.length ∧
        List.Forall₂ (fun p s => Decode codec emptyStrayInput (p.2.getD []) = .ok s)
          bucket.entries rs) := by
  constructor
  · intro h
    obtain ⟨p, hp, e, h1, h2⟩ := fetchLoop_error codec bucket.entries [] h
    exact ⟨p, hp, e, h1, by simp only [FetchAllStrayInputs, hb, h2]⟩
  · intro h
    obtain ⟨rs, h1, h2⟩ := fetchLoop_ok codec bucket.entries [] h
    exact ⟨rs, by simpa [FetchAllStrayInputs, hb] using h1, h2.length_eq.symm, h2⟩

/-- C20, on a bucket whose second value is cut after three bytes: the records
that did decode are not returned. -/
theorem FetchAllStrayInputs_fail_fast_witness :
    FetchAllStrayInputs varBytesCodec truncatedStore = .error .eof ∧
    ∃ p ∈ [(putUint64 1, some (recordLayout varBytesCodec encodeSample)),
        (putUint64 2, some [0, 0, 0])],
      ∃ e, Decode varBytesCodec emptyStrayInput (p.2.getD []) = .error e ∧
        FetchAllStrayInputs varBytesCodec truncatedStore = .error e :=
  ⟨rfl, (FetchAllStrayInputs_fail_fast varBytesCodec truncatedStore
    ⟨2, [(putUint64 1, some (recordLayout varBytesCodec encodeSample)),
      (putUint64 2, some [0, 0, 0])]⟩ rfl).1
    ⟨(putUint64 2, some [0, 0, 0]), by simp, .eof, rfl⟩⟩

/-! ## Index safety, single records and the net total: helper lemmas -/

theorem addWitness_ok_inv {SD : Type} (cfg : PoolConfig SD) (txn txn1 : MsgTx)
    (hc : TxSigHashes) (idx : Nat) (so : SpendableOutput SD)
    (h : addWitness cfg txn hc idx so = .ok txn1) :
    ∃ w ti, cfg.buildWitness so txn hc idx = .ok w ∧ txn.txIn[idx]? = some ti ∧
      txn1 = ⟨txn.version, txn.txIn.set idx ⟨ti.previousOutPoint, w⟩, txn.txOut⟩ := by
  unfold addWitness at h
  split at h
  · cases h
  · rename_i w hw
    split at h
    · cases h
    · rename_i ti hti
      simp only [Except.ok.injEq] at h
      exact ⟨w, ti, hw, by simpa using hti, h.symm⟩

theorem witnessLoop_idx {SD : Type} (cfg : PoolConfig SD) (hc : TxSigHashes)
    (inputs : List (SpendableOutput SD)) :
    ∀ (i : Nat) (txn : MsgTx) (calls : List (WitnessCall SD)),
    i + inputs.length ≤ txn.txIn.length →
    (∀ c ∈ calls, c.idx < c.txn.txIn.length) →
    ∀ c ∈ (witnessLoop cfg hc i inputs txn calls).2, c.idx < c.txn.txIn.length := by
  induction inputs with
  | nil => intro i txn calls _ hcalls; exact hcalls
  | cons input rest ih =>
    intro i txn calls hlen hcalls
    simp only [List.length_cons] at hlen
    have hcalls2 : ∀ c ∈ calls ++ [(⟨input, txn, hc, i⟩ : WitnessCall SD)],
        c.idx < c.txn.txIn.length := by
      intro c hmem
      rcases List.mem_append.mp hmem with h1 | h1
      · exact hcalls c h1
      · rw [List.mem_singleton.mp h1]
        simp only
        omega
    unfold witnessLoop
    cases hadd : addWitness cfg txn hc i input with
    | error e => exact hcalls2
    | ok txn1 =>
      simp only []
      obtain ⟨w, ti, _, _, htxn1⟩ := addWitness_ok_inv cfg txn txn1 hc i input hadd
      apply ih (i + 1) txn1 _ _ hcalls2
      rw [htxn1]
      simp only [List.length_set]
      omega

theorem recordsLoop_idx {SD : Type} (cfg : PoolConfig SD) (fee : Int)
    (recs : List (StrayInput SD)) :
    ∀ (txn : MsgTx) (total : Int) (calls : List (WitnessCall SD)),
    (∀ c ∈ calls, c.idx < c.txn.txIn.length) →
    ∀ c ∈ (recordsLoop cfg fee recs txn total calls).2, c.idx < c.txn.txIn.length := by
  induction recs with
  | nil => intro txn total calls hcalls; exact hcalls
  | cons s rest ih =>
    intro txn total calls hcalls
    have hw := witnessLoop_idx cfg (NewTxSigHashes (addTxIns txn s.inputs)) s.inputs 0
      (addTxIns txn s.inputs) calls (by rw [addTxIns_eq]; simp) hcalls
    unfold recordsLoop
    simp only []
    split
    · rename_i e calls1 e1
      rw [e1] at hw
      exact hw
    · rename_i txn2 calls1 e1
      rw [e1] at hw
      exact ih txn2 _ calls1 hw

theorem genSweepTx_calls {SD : Type} (cfg : PoolConfig SD) (pkScript : List Nat)
    (recs : List (StrayInput SD)) :
    (genSweepTx cfg pkScript recs).2 = (assembleSweepTx cfg pkScript recs).2 := by
  unfold genSweepTx
  split
  · rename_i e calls e1; rw [e1]
  · rename_i txn calls e1
    rw [e1]
    split <;> rfl

theorem assembleSweepTx_idx {SD : Type} (cfg : PoolConfig SD) (pkScript : List Nat)
    (recs : List (StrayInput SD)) :
    ∀ c ∈ (assembleSweepTx cfg pkScript recs).2, c.idx < c.txn.txIn.length := by
  unfold assembleSweepTx
  split
  · intro c hc; simp at hc
  · rename_i fee _
    have hr := recordsLoop_idx cfg fee recs (NewMsgTx 2) 0 [] (by simp)
    split
    · rename_i e calls e1
      rw [e1] at hr
      exact hr
    · rename_i txn total calls e1
      rw [e1] at hr
      exact hr

theorem wrap64_eq_asSigned64 (x : Int) : wrap64 x = asSigned64 x := by
  unfold wrap64 asSigned64
  split <;> omega

theorem partialSumsFit_exact {SD : Type} (fee : Int) (recs : List (StrayInput SD)) :
    ∀ acc : Int, fits64 acc → partialSumsFit fee acc recs →
    fits64 (acc + sumTotalAmt recs - sumFees fee recs) := by
  induction recs with
  | nil => intro acc h _; simpa [sumTotalAmt, sumFees] using h
  | cons s rest ih =>
    intro acc _ h
    obtain ⟨_, _, h3, h4⟩ := h
    have := ih _ h3 h4
    simp only [sumTotalAmt, sumFees]
    have e : acc + (s.totalAmt + sumTotalAmt rest) - (fee * s.txVSize + sumFees fee rest) =
        acc + (s.totalAmt - fee * s.txVSize) + sumTotalAmt rest - sumFees fee rest := by ring
    rw [e]
    exact this

theorem sumTotalAmt_eq_sumInputAmounts {SD : Type} (recs : List (StrayInput SD))
    (h : ∀ s ∈ recs, s.totalAmt = (s.inputs.map (fun i => i.amt)).sum) :
    sumTotalAmt recs = sumInputAmounts recs := by
  induction recs with
  | nil => rfl
  | cons s rest ih =>
    simp only [sumTotalAmt, sumInputAmounts, h s (List.mem_cons_self _ _),
      ih (fun q hq => h q (List.mem_cons_of_mem _ hq))]

theorem sumFees_nonneg {SD : Type} (fee : Int) (recs : List (StrayInput SD))
    (hfee : 0 ≤ fee) (hv : ∀ s ∈ recs, 0 ≤ s.txVSize) :
    0 ≤ sumFees fee recs ∧ (sumFees fee recs = 0 ↔ ∀ s ∈ recs, fee * s.txVSize = 0) := by
  induction recs with
  | nil => simp [sumFees]
  | cons s rest ih =>
    obtain ⟨h1, h2⟩ := ih (fun q hq => hv q (List.mem_cons_of_mem _ hq))
    have h3 : 0 ≤ fee * s.txVSize := Int.mul_nonneg hfee (hv s (List.mem_cons_self _ _))
    simp only [sumFees, List.mem_cons, forall_eq_or_imp]
    refine ⟨by omega, ?_⟩
    rw [← h2]
    constructor
    · intro h; constructor <;> omega
    · rintro ⟨a, b⟩; omega

theorem witnessLoop_run {SD : Type} (cfg : PoolConfig SD) (hc : TxSigHashes)
    (inputs : List (SpendableOutput SD)) :
    ∀ (i : Nat) (txn txn2 : MsgTx) (calls : List (WitnessCall SD)),
    (witnessLoop cfg hc i inputs txn calls).1 = .ok txn2 →
    ∃ new, (witnessLoop cfg hc i inputs txn calls).2 = calls ++ new ∧
      new.length = inputs.length ∧
      (∀ k, k < i → txn2.txIn[k]? = txn.txIn[k]?) ∧
      ∀ j, j < inputs.length →
        WitnessedAt cfg hc (txn.txIn.map (fun t => t.previousOutPoint)) inputs new
          txn2.txIn i j := by
  induction inputs with
  | nil =>
    intro i txn txn2 calls h
    simp only [witnessLoop, Except.ok.injEq] at h
    subst h
    exact ⟨[], by simp [witnessLoop], rfl, fun _ _ => rfl, fun j hj => by simp at hj⟩
  | cons input rest ih =>
    intro i txn txn2 calls h
    unfold witnessLoop at h ⊢
    cases hadd : addWitness cfg txn hc i input with
    | error e => rw [hadd] at h; cases h
    | ok txn1 =>
      rw [hadd] at h
      simp only [] at h ⊢
      obtain ⟨w, ti, hw, hti, htxn1⟩ := addWitness_ok_inv cfg txn txn1 hc i input hadd
      obtain ⟨new, h1, h2, h3, h4⟩ := ih (i + 1) txn1 txn2 _ h
      have hprev : txn1.txIn.map (fun t => t.previousOutPoint) =
          txn.txIn.map (fun t => t.previousOutPoint) := by
        rw [htxn1]
        exact map_set_previousOutPoint _ _ _ _ (by simpa using hti)
      have hilt : i < txn.txIn.length := by
        by_contra hge
        rw [List.getElem?_eq_none (by omega)] at hti
        cases hti
      refine ⟨(⟨input, txn, hc, i⟩ : WitnessCall SD) :: new, ?_, ?_, ?_, ?_⟩
      · rw [h1]; simp
      · simp [h2]
      · intro k hk
        rw [h3 k (by omega), htxn1]
        simp only
        rw [List.getElem?_set_ne (by omega)]
      · intro j hj
        cases j with
        | zero =>
          refine ⟨⟨input, txn, hc, i⟩, w, by simp, by simp, rfl, rfl, rfl, hw, ?_⟩
          rw [Nat.add_zero, h3 i (by omega), htxn1]
          simp only
          rw [List.getElem?_set_self hilt]
          rfl
        | succ j =>
          simp only [List.length_cons] at hj
          obtain ⟨c, w2, a1, a2, a3, a4, a5, a6, a7⟩ := h4 j (by omega)
          refine ⟨c, w2, by simpa using a1, by simpa using a2, by omega, a4,
            by rw [a5, hprev], a6, ?_⟩
          have e : i + (j + 1) = i + 1 + j := by omega
          rw [e]
          exact a7


theorem witnessLoop_mono {SD : Type} (cfg : PoolConfig SD) (hc : TxSigHashes)
    (inputs : List (SpendableOutput SD)) :
    ∀ (i : Nat) (txn : MsgTx) (calls : List (WitnessCall SD)),
    ∀ c ∈ calls, c ∈ (witnessLoop cfg hc i inputs txn calls).2 := by
  induction inputs with
  | nil => intro i txn calls c h; exact h
  | cons input rest ih =>
    intro i txn calls c h
    unfold witnessLoop
    cases hadd : addWitness cfg txn hc i input with
    | error e => exact List.mem_append_left _ h
    | ok txn1 => exact ih (i + 1) txn1 _ c (List.mem_append_left _ h)

theorem witnessLoop_total {SD : Type} (cfg : PoolConfig SD) (hc : TxSigHashes)
    (inputs : List (SpendableOutput SD)) :
    ∀ (i : Nat) (txn : MsgTx) (calls : List (WitnessCall SD)),
    i + inputs.length ≤ txn.txIn.length →
    (∀ c ∈ (witnessLoop cfg hc i inputs txn calls).2, CallOk cfg c) →
    ∃ txn2, (witnessLoop cfg hc i inputs txn calls).1 = .ok txn2 := by
  induction inputs with
  | nil => intro i txn calls _ _; exact ⟨txn, rfl⟩
  | cons input rest ih =>
    intro i txn calls hlen hall
    simp only [List.length_cons] at hlen
    have hmem : (⟨input, txn, hc, i⟩ : WitnessCall SD) ∈
        (witnessLoop cfg hc i (input :: rest) txn calls).2 := by
      unfold witnessLoop
      cases hadd : addWitness cfg txn hc i input with
      | error e => simp
      | ok txn1 => exact witnessLoop_mono cfg hc rest (i + 1) txn1 _ _ (by simp)
    obtain ⟨w, hw⟩ := hall _ hmem
    simp only at hw
    have hget : ∃ ti, txn.txIn.get? i = some ti :=
      ⟨txn.txIn[i], by simp [List.getElem?_eq_getElem (show i < txn.txIn.length by omega)]⟩
    obtain ⟨ti, hti⟩ := hget
    have hadd : addWitness cfg txn hc i input =
        .ok ⟨txn.version, txn.txIn.set i ⟨ti.previousOutPoint, w⟩, txn.txOut⟩ := by
      simp only [addWitness, hw, hti]
    have hall2 := hall
    unfold witnessLoop at hall2 ⊢
    rw [hadd] at hall2 ⊢
    simp only [] at hall2 ⊢
    exact ih (i + 1) _ _ (by simp only [List.length_set]; omega) hall2

theorem assembleSweepTx_single {SD : Type} (cfg : PoolConfig SD) (pkScript : List Nat)
    (s : StrayInput SD) (fee : Int) (hfee : cfg.estimateFeePerVSize 2 = .ok fee) :
    (assembleSweepTx cfg pkScript [s]).2 =
      (witnessLoop cfg ⟨s.inputs.map (fun i => i.outpoint), []⟩ 0 s.inputs
        ⟨2, s.inputs.map (fun i => ⟨i.outpoint, []⟩), []⟩ []).2 ∧
    ∀ txn2, (witnessLoop cfg ⟨s.inputs.map (fun i => i.outpoint), []⟩ 0 s.inputs
        ⟨2, s.inputs.map (fun i => ⟨i.outpoint, []⟩), []⟩ []).1 = .ok txn2 →
      ∃ v, (assembleSweepTx cfg pkScript [s]).1 =
        .ok ⟨txn2.version, txn2.txIn, txn2.txOut ++ [⟨v, pkScript⟩]⟩ := by
  have e1 : addTxIns (NewMsgTx 2) s.inputs =
      ⟨2, s.inputs.map (fun i => ⟨i.outpoint, []⟩), []⟩ := by
    rw [addTxIns_eq]; simp [NewMsgTx]
  have e2 : NewTxSigHashes ⟨2, s.inputs.map (fun i => ⟨i.outpoint, []⟩), []⟩ =
      ⟨s.inputs.map (fun i => i.outpoint), []⟩ := by
    simp [NewTxSigHashes, Function.comp_def]
  simp only [assembleSweepTx, hfee, recordsLoop, e1, e2]
  cases hW : witnessLoop cfg ⟨s.inputs.map (fun i => i.outpoint), []⟩ 0 s.inputs
      ⟨2, s.inputs.map (fun i => ⟨i.outpoint, []⟩), []⟩ [] with
  | mk res calls =>
    cases res with
    | error e => simp
    | ok txn2 =>
      simp only [Except.ok.injEq, true_and]
      intro txn3 h
      subst h
      exact ⟨_, rfl⟩

/-! ## Index safety, single records and the net total: claims -/

/-- C21: at every BuildWitness call of genSweepTx, and so at every write of
txn.TxIn[idx].Witness that follows a successful call, the index is below the
number of inputs the transaction holds at that moment: the indexed input
exists and the write is in range. -/
theorem genSweepTx_index_in_range {SD : Type} (cfg : PoolConfig SD) (pkScript : List Nat)
    (recs : List (StrayInput SD)) (c : WitnessCall SD)
    (hc : c ∈ (genSweepTx cfg pkScript recs).2) :
    c.idx < c.txn.txIn.length ∧ ∃ ti, c.txn.txIn[c.idx]? = some ti := by
  rw [genSweepTx_calls] at hc
  have h := assembleSweepTx_idx cfg pkScript recs c hc
  exact ⟨h, ⟨c.txn.txIn[c.idx], List.getElem?_eq_getElem h⟩⟩

/-- C21, on the third call of the scenario: position 0 of three inputs. -/
theorem genSweepTx_index_in_range_witness :
    scenarioThirdCall.idx < scenarioThirdCall.txn.txIn.length ∧
    ∃ ti, scenarioThirdCall.txn.txIn[scenarioThirdCall.idx]? = some ti :=
  genSweepTx_index_in_range (staticConfig 2) [1, 2, 3] scenarioRecords scenarioThirdCall
    (by decide)

/-- C22: when genSweepTx is given exactly one record with inputs i_0, ...,
i_(n-1), the estimator answers and every witness build it makes succeeds, the
transaction is assembled with n inputs after exactly n BuildWitness calls; call
j is for i_j at position j, on a transaction holding the n outpoints of the
record and with the cache computed over those n outpoints, and input j of the
assembled transaction carries the witness that call returned.  genSweepTx
makes the same calls and returns no other transaction. -/
theorem genSweepTx_single_record {SD : Type} (cfg : PoolConfig SD) (pkScript : List Nat)
    (s : StrayInput SD) (fee : Int) (hfee : cfg.estimateFeePerVSize 2 = .ok fee)
    (hall : ∀ c ∈ (genSweepTx cfg pkScript [s]).2, CallOk cfg c) :
    ∃ tx, (assembleSweepTx cfg pkScript [s]).1 = .ok tx ∧
      (∀ tx2, (genSweepTx cfg pkScript [s]).1 = .ok tx2 → tx2 = tx) ∧
      (genSweepTx cfg pkScript [s]).2.length = s.inputs.length ∧
      tx.txIn.length = s.inputs.length ∧
      ∀ j, j < s.inputs.length →
        WitnessedAt cfg ⟨s.inputs.map (fun i => i.outpoint), []⟩
          (s.inputs.map (fun i => i.outpoint)) s.inputs
          (genSweepTx cfg pkScript [s]).2 tx.txIn 0 j := by
  rw [genSweepTx_calls] at hall ⊢
  obtain ⟨hlog, hres⟩ := assembleSweepTx_single cfg pkScript s fee hfee
  rw [hlog] at hall ⊢
  obtain ⟨txn2, hW⟩ := witnessLoop_total cfg _ s.inputs 0 _ [] (by simp) hall
  obtain ⟨v, hasm⟩ := hres txn2 hW
  obtain ⟨new, h1, h2, _, h4⟩ := witnessLoop_run cfg _ s.inputs 0 _ txn2 [] hW
  obtain ⟨_, hprev, _⟩ := witnessLoop_ok cfg _ s.inputs 0 _ txn2 [] hW
  refine ⟨_, hasm, ?_, ?_, ?_, ?_⟩
  · intro tx2 h
    obtain ⟨ha, _⟩ := genSweepTx_ok cfg pkScript [s] tx2 h
    rw [hasm] at ha
    cases ha
    rfl
  · rw [h1]; simpa using h2
  · have := congrArg List.length hprev
    simpa using this
  · intro j hj
    have := h4 j hj
    rw [h1]
    simpa [Function.comp_def] using this

/-- C22, on the first record of the scenario alone: two calls, at positions 0
and 1, and both inputs carry their own witness. -/
theorem genSweepTx_single_record_witness :
    ∃ tx, (assembleSweepTx (staticConfig 2) [1, 2, 3] [scenarioFirstRecord]).1 = .ok tx ∧
      (∀ tx2, (genSweepTx (staticConfig 2) [1, 2, 3] [scenarioFirstRecord]).1 = .ok tx2 →
        tx2 = tx) ∧
      (genSweepTx (staticConfig 2) [1, 2, 3] [scenarioFirstRecord]).2.length =
        scenarioFirstRecord.inputs.length ∧
      tx.txIn.length = scenarioFirstRecord.inputs.length ∧
      ∀ j, j < scenarioFirstRecord.inputs.length →
        WitnessedAt (staticConfig 2) ⟨scenarioFirstRecord.inputs.map (fun i => i.outpoint), []⟩
          (scenarioFirstRecord.inputs.map (fun i => i.outpoint)) scenarioFirstRecord.inputs
          (genSweepTx (staticConfig 2) [1, 2, 3] [scenarioFirstRecord]).2 tx.txIn 0 j :=
  genSweepTx_single_record (staticConfig 2) [1, 2, 3] scenarioFirstRecord 2 rfl
    (fun c _ => ⟨[[c.so.amt.toNat, c.idx]], rfl⟩)

/-- C23: the output value genSweepTx places in the transaction before the
sanity check is the exact integer sum of totalAmt minus sum of feeRate *
txVSize reduced modulo 2^64 and read as a signed 64-bit integer; it is that
exact integer when every product and every partial sum fits in a signed
64-bit integer, and already when the exact integer itself fits. -/
theorem assembleSweepTx_value {SD : Type} (cfg : PoolConfig SD) (pkScript : List Nat)
    (recs : List (StrayInput SD)) (tx : MsgTx) (fee : Int)
    (hfee : cfg.estimateFeePerVSize 2 = .ok fee)
    (h : (assembleSweepTx cfg pkScript recs).1 = .ok tx) :
    tx.txOut = [⟨asSigned64 (sumTotalAmt recs - sumFees fee recs), pkScript⟩] ∧
    (partialSumsFit fee 0 recs →
      tx.txOut = [⟨sumTotalAmt recs - sumFees fee recs, pkScript⟩]) ∧
    (fits64 (sumTotalAmt recs - sumFees fee recs) →
      tx.txOut = [⟨sumTotalAmt recs - sumFees fee recs, pkScript⟩]) := by
  obtain ⟨fee2, hfee2, htx, _⟩ := assembleSweepTx_ok cfg pkScript recs tx h
  rw [hfee] at hfee2
  cases hfee2
  have hout : tx.txOut = [⟨wrap64 (sumTotalAmt recs - sumFees fee recs), pkScript⟩] := by
    rw [htx]
  have hfit : fits64 (sumTotalAmt recs - sumFees fee recs) →
      tx.txOut = [⟨sumTotalAmt recs - sumFees fee recs, pkScript⟩] := by
    intro hf
    rw [hout, wrap64_of_fits _ hf.1 hf.2]
  refine ⟨by rw [hout, wrap64_eq_asSigned64], ?_, hfit⟩
  intro hp
  have := partialSumsFit_exact fee recs 0 (by unfold fits64; decide) hp
  rw [Int.zero_add] at this
  exact hfit this

/-- C23, on the scenario of the specification (output value 221) and on a
record whose fee product wraps around (output value 5). -/
theorem assembleSweepTx_value_witness :
    scenarioTx.txOut = [⟨asSigned64 (sumTotalAmt scenarioRecords - sumFees 2 scenarioRecords),
      [1, 2, 3]⟩] ∧
    asSigned64 (sumTotalAmt (overflowRecords 5) - sumFees (2 ^ 32) (overflowRecords 5)) = 5 :=
  ⟨(assembleSweepTx_value (staticConfig 2) [1, 2, 3] scenarioRecords scenarioTx 2 rfl rfl).1,
   by decide⟩

/-- C24: when every record's totalAmt is the sum of the amounts of its inputs,
every txVSize and the fee rate are non-negative and the exact net total fits
in a signed 64-bit integer, a transaction returned by genSweepTx has one
output, whose value is at most the sum of the amounts of all inputs of all
records, with equality exactly when the fee of every record is zero. -/
theorem genSweepTx_no_value_created {SD : Type} (cfg : PoolConfig SD) (pkScript : List Nat)
    (recs : List (StrayInput SD)) (tx : MsgTx) (fee : Int)
    (hfee : cfg.estimateFeePerVSize 2 = .ok fee)
    (h : (genSweepTx cfg pkScript recs).1 = .ok tx)
    (htot : ∀ s ∈ recs, s.totalAmt = (s.inputs.map (fun i => i.amt)).sum)
    (hv : ∀ s ∈ recs, 0 ≤ s.txVSize) (hrate : 0 ≤ fee)
    (hfit : fits64 (sumTotalAmt recs - sumFees fee recs)) :
    ∃ v, tx.txOut = [⟨v, pkScript⟩] ∧ v ≤ sumInputAmounts recs ∧
      (v = sumInputAmounts recs ↔ ∀ s ∈ recs, fee * s.txVSize = 0) := by
  obtain ⟨ha, _⟩ := genSweepTx_ok cfg pkScript recs tx h
  obtain ⟨fee2, hfee2, htx, _⟩ := assembleSweepTx_ok cfg pkScript recs tx ha
  rw [hfee] at hfee2
  cases hfee2
  obtain ⟨h1, h2⟩ := sumFees_nonneg fee recs hrate hv
  have h3 := sumTotalAmt_eq_sumInputAmounts recs htot
  refine ⟨sumTotalAmt recs - sumFees fee recs, ?_, by omega, ?_⟩
  · rw [htx, wrap64_of_fits _ hfit.1 hfit.2]
  · rw [← h2]
    constructor <;> intro <;> omega

/-- C24, on the scenario of the specification: 221 is below 100 + 101 + 50. -/
theorem genSweepTx_no_value_created_witness :
    ∃ v, scenarioTx.txOut = [⟨v, [1, 2, 3]⟩] ∧ v ≤ sumInputAmounts scenarioRecords ∧
      (v = sumInputAmounts scenarioRecords ↔ ∀ s ∈ scenarioRecords, 2 * s.txVSize = 0) :=
  genSweepTx_no_value_created (staticConfig 2) [1, 2, 3] scenarioRecords scenarioTx 2 rfl rfl
    (by decide) (by decide) (by decide) (by unfold fits64; decide)

end Outputspool
